import Mathlib

/-!
Verification of the aifbin-recall retrieval service against its specification.

The development shallowly embeds the core of the TypeScript sources:

* `parseAifBinFile` — the AIF-BIN v2 binary parser (src/indexer.ts),
  including the MessagePack decoding of metadata sections,
* `EngramDB` — the SQLite-backed store (src/db.ts): chunk rows, collection
  rows and the FTS5 keyword index maintained by the insert/delete triggers,
* `Indexer.indexFile` — the ingestion pipeline (src/indexer.ts),
* `cosineSimilarity`, `normalizeBM25Scores` and `SearchEngine.hybridSearch`
  (src/search.ts).

Modelling conventions:

* JavaScript strings and `Buffer`s are modelled as byte lists (`List Nat`);
  UTF-8 decoding is not modelled (it is injective, so equality claims are
  unaffected).
* JavaScript numbers are modelled as exact rationals (`Rat`).  NaN and the
  infinities are outside the model: the MessagePack decoder rejects
  non-finite floats, and the 32-bit float rounding function `f32round`
  models IEEE-754 round-to-nearest-even only for finite results.
* `crypto.randomUUID()` is modelled by an explicit id-source counter that is
  threaded through the functions that call it; successive draws yield
  distinct fresh identifiers.
* The SQLite timestamp columns (`created_at`/`updated_at`, filled from the
  wall clock by `CURRENT_TIMESTAMP`) are omitted from the store model, and
  chunk metadata is stored as its decoded value rather than as the
  `JSON.stringify` image (stringification is deterministic, so value
  equality gives string equality).
* better-sqlite3 compiles SQLite with `SQLITE_DEFAULT_FOREIGN_KEYS=1`, so
  foreign-key enforcement is on by default; `ON DELETE CASCADE` on
  `chunks.collection_id` therefore fires, and cascade deletions run the
  `chunks_ad` delete trigger that maintains `chunks_fts`.
-/

/-- Values produced by the MessagePack decoder (`msgpackr`'s `unpack`),
restricted to the core types that can appear in AIF-BIN metadata.  Map keys
are the decoded JavaScript object property names, i.e. strings (integer keys
are stringified); extension types and non-finite floats are outside the
model. -/
inductive MsgValue where
  | nil
  | boolV (b : Bool)
  | intV (n : Int)
  | floatV (q : Rat)
  | strV (s : List Nat)
  | binV (b : List Nat)
  | arrV (vs : List MsgValue)
  | mapV (kvs : List (List Nat × MsgValue))
deriving Inhabited

/-- Truthiness of a decoded value, as JavaScript coerces it in `if (v)` and
`v || w`.  Objects (arrays, maps, buffers) are always truthy; `null`, `false`,
`0` and the empty string are falsy. -/
def truthy : MsgValue → Bool
  | .nil => false
  | .boolV b => b
  | .intV n => n != 0
  | .floatV q => q != 0
  | .strV s => !s.isEmpty
  | .binV _ => true
  | .arrV _ => true
  | .mapV _ => true

/-- Property lookup on a decoded JavaScript object: the last binding of a key
wins, matching repeated-key assignment order. -/
def jsGet (kvs : List (List Nat × MsgValue)) (k : List Nat) : Option MsgValue :=
  kvs.foldl (fun acc p => if p.1 = k then some p.2 else acc) none

/-- Embedding of a natural number into the rationals through the `Rat`
constructors, used on computed values where the typeclass cast would not
reduce. -/
def ratN (n : Nat) : Rat := Rat.ofInt (Int.ofNat n)

/-- Big-endian read of `k` bytes from the front of a byte list (MessagePack
numbers are big-endian).  Fails if fewer than `k` bytes remain. -/
def readBE : Nat → List Nat → Option (Nat × List Nat)
  | 0, bs => some (0, bs)
  | _ + 1, [] => none
  | k + 1, b :: bs =>
    match readBE k bs with
    | some (v, rest) => some (b * 256 ^ k + v, rest)
    | none => none

/-- Take exactly `n` bytes from the front of a byte list; fails if fewer
remain (msgpackr throws on truncated input). -/
def takeBytes (n : Nat) (bs : List Nat) : Option (List Nat × List Nat) :=
  if n ≤ bs.length then some (bs.take n, bs.drop n) else none

/-- Reinterpret a `bits`-wide unsigned value as two's-complement signed. -/
def toSigned (bits : Nat) (v : Nat) : Int :=
  if v < 2 ^ (bits - 1) then Int.ofNat v else Int.ofNat v - Int.ofNat (2 ^ bits)

/-- Exact rational value of an IEEE-754 binary32 bit pattern.  Returns `none`
for NaN and the infinities (exponent field 255), which are outside the
model. -/
def f32val (u : Nat) : Option Rat :=
  let s : Nat := u / 2 ^ 31
  let e : Nat := (u / 2 ^ 23) % 2 ^ 8
  let m : Nat := u % 2 ^ 23
  if e = 255 then none
  else
    let mag : Rat :=
      if e = 0 then mkRat (Int.ofNat m) (2 ^ 149)
      else if 150 ≤ e then ratN ((2 ^ 23 + m) * 2 ^ (e - 150))
      else mkRat (Int.ofNat (2 ^ 23 + m)) (2 ^ (150 - e))
    some (if s = 1 then -mag else mag)

/-- Exact rational value of an IEEE-754 binary64 bit pattern.  Returns `none`
for NaN and the infinities (exponent field 2047). -/
def f64val (u : Nat) : Option Rat :=
  let s : Nat := u / 2 ^ 63
  let e : Nat := (u / 2 ^ 52) % 2 ^ 11
  let m : Nat := u % 2 ^ 52
  if e = 2047 then none
  else
    let mag : Rat :=
      if e = 0 then mkRat (Int.ofNat m) (2 ^ 1074)
      else if 1075 ≤ e then ratN ((2 ^ 52 + m) * 2 ^ (e - 1075))
      else mkRat (Int.ofNat (2 ^ 52 + m)) (2 ^ (1075 - e))
    some (if s = 1 then -mag else mag)

/-- Deterministic injective byte encoding of an integer (a sign byte for
negatives, a digit marker, then the magnitude), the stand-in for JavaScript
number-to-string coercion where a decoded number is used as an object key or
a TEXT column value.  The encoding is not the ASCII decimal image, but it is
a fixed deterministic function of the value, which is all the claims
depend on. -/
def decimalBytes (n : Int) : List Nat :=
  (if n < 0 then [45] else []) ++ [48, n.natAbs]

mutual

/-- One step of the MessagePack decoder: decodes a single value from the
front of the byte list and returns it with the remaining bytes.  The fuel
argument only guarantees termination; `unpackM` supplies enough fuel for any
input of the modelled subset.  Byte tags follow the MessagePack
specification; extension types decode to `none` (msgpackr would produce
values outside this model). -/
def decodeV : Nat → List Nat → Option (MsgValue × List Nat)
  | 0, _ => none
  | _ + 1, [] => none
  | fuel + 1, b :: bs =>
    if b ≤ 0x7f then some (.intV b, bs)
    else if b ≤ 0x8f then decodeMapItems fuel (b - 0x80) bs
    else if b ≤ 0x9f then decodeArrItems fuel (b - 0x90) bs
    else if b ≤ 0xbf then
      match takeBytes (b - 0xa0) bs with
      | some (s, rest) => some (.strV s, rest)
      | none => none
    else if b = 0xc0 then some (.nil, bs)
    else if b = 0xc2 then some (.boolV false, bs)
    else if b = 0xc3 then some (.boolV true, bs)
    else if b = 0xc4 ∨ b = 0xc5 ∨ b = 0xc6 then
      match readBE (if b = 0xc4 then 1 else if b = 0xc5 then 2 else 4) bs with
      | some (n, rest) =>
        match takeBytes n rest with
        | some (s, rest2) => some (.binV s, rest2)
        | none => none
      | none => none
    else if b = 0xca then
      match readBE 4 bs with
      | some (u, rest) =>
        match f32val u with
        | some q => some (.floatV q, rest)
        | none => none
      | none => none
    else if b = 0xcb then
      match readBE 8 bs with
      | some (u, rest) =>
        match f64val u with
        | some q => some (.floatV q, rest)
        | none => none
      | none => none
    else if b = 0xcc ∨ b = 0xcd ∨ b = 0xce ∨ b = 0xcf then
      match readBE (if b = 0xcc then 1 else if b = 0xcd then 2 else if b = 0xce then 4 else 8) bs with
      | some (v, rest) => some (.intV v, rest)
      | none => none
    else if b = 0xd0 ∨ b = 0xd1 ∨ b = 0xd2 ∨ b = 0xd3 then
      let w : Nat := if b = 0xd0 then 8 else if b = 0xd1 then 16 else if b = 0xd2 then 32 else 64
      match readBE (w / 8) bs with
      | some (v, rest) => some (.intV (toSigned w v), rest)
      | none => none
    else if b = 0xd9 ∨ b = 0xda ∨ b = 0xdb then
      match readBE (if b = 0xd9 then 1 else if b = 0xda then 2 else 4) bs with
      | some (n, rest) =>
        match takeBytes n rest with
        | some (s, rest2) => some (.strV s, rest2)
        | none => none
      | none => none
    else if b = 0xdc ∨ b = 0xdd then
      match readBE (if b = 0xdc then 2 else 4) bs with
      | some (n, rest) => decodeArrItems fuel n rest
      | none => none
    else if b = 0xde ∨ b = 0xdf then
      match readBE (if b = 0xde then 2 else 4) bs with
      | some (n, rest) => decodeMapItems fuel n rest
      | none => none
    else if 0xe0 ≤ b then some (.intV (Int.ofNat b - 256), bs)
    else none

/-- Decodes `n` consecutive MessagePack values into an array value. -/
def decodeArrItems : Nat → Nat → List Nat → Option (MsgValue × List Nat)
  | 0, _, _ => none
  | _ + 1, 0, bs => some (.arrV [], bs)
  | fuel + 1, n + 1, bs =>
    match decodeV fuel bs with
    | some (v, rest) =>
      match decodeArrItems fuel n rest with
      | some (.arrV vs, rest2) => some (.arrV (v :: vs), rest2)
      | _ => none
    | none => none

/-- Decodes `n` consecutive key/value pairs into a map value.  Keys become
JavaScript object property names: string keys are kept, integer keys are
stringified by msgpackr; any other key type is outside the model. -/
def decodeMapItems : Nat → Nat → List Nat → Option (MsgValue × List Nat)
  | 0, _, _ => none
  | _ + 1, 0, bs => some (.mapV [], bs)
  | fuel + 1, n + 1, bs =>
    match decodeV fuel bs with
    | some (kv, rest) =>
      match kv with
      | .strV k =>
        match decodeV fuel rest with
        | some (v, rest2) =>
          match decodeMapItems fuel n rest2 with
          | some (.mapV kvs, rest3) => some (.mapV ((k, v) :: kvs), rest3)
          | _ => none
        | none => none
      | .intV i =>
        match decodeV fuel rest with
        | some (v, rest2) =>
          match decodeMapItems fuel n rest2 with
          | some (.mapV kvs, rest3) => some (.mapV ((decimalBytes i, v) :: kvs), rest3)
          | _ => none
        | none => none
      | _ => none
    | none => none

end

/-- Model of `unpack` from msgpackr: decode the first MessagePack value of a
byte string (trailing bytes are ignored), failing on truncated or unmodelled
input.  The fuel bound `2 * length + 2` suffices for every input: each
decoding step either consumes a byte or closes a container, and a container
occupies at least one byte. -/
def unpackM (bs : List Nat) : Option MsgValue :=
  (decodeV (2 * bs.length + 2) bs).map Prod.fst

/-- Little-endian read of `k` bytes of a byte list starting at offset `off`,
the model of `DataView.getUint32`/`getBigUint64` with `littleEndian = true`.
Fails (the DataView throws a RangeError) when the read crosses the end of the
buffer. -/
def readLE : List Nat → Nat → Nat → Option Nat
  | _, _, 0 => some 0
  | bs, off, k + 1 =>
    match bs.get? off, readLE bs (off + 1) k with
    | some b, some v => some (b + 256 * v)
    | _, _ => none

/-- Model of `buffer.subarray(start, start + len)`: both bounds are clamped
to the buffer, so an out-of-range request yields a short (possibly empty)
slice rather than an error. -/
def sub (bs : List Nat) (start len : Nat) : List Nat :=
  (bs.drop start).take len

/-- AIF-BIN v2 magic bytes, the string AIFBIN followed by 0x00 0x01. -/
def MAGIC : List Nat := [0x41, 0x49, 0x46, 0x42, 0x49, 0x4e, 0x00, 0x01]

/-- Sentinel section offset meaning the section is absent. -/
def ABSENT : Nat := 2 ^ 64 - 1

/-- Fresh identifier produced by the modelled `crypto.randomUUID()`: the
identifiers drawn for distinct counter states are distinct, and every drawn
identifier is a non-empty byte string (so it is truthy, as a UUID string
is). -/
def uuidBytes (n : Nat) : List Nat :=
  [117, n]

/-- ASCII bytes of the metadata key id. -/
def idKey : List Nat := [105, 100]

/-- ASCII bytes of the metadata key embedding. -/
def embeddingKey : List Nat := [101, 109, 98, 101, 100, 100, 105, 110, 103]

/-- ASCII bytes of the file metadata key created_at. -/
def createdAtKey : List Nat := [99, 114, 101, 97, 116, 101, 100, 95, 97, 116]

/-- ASCII bytes of the file metadata key modified_at. -/
def modifiedAtKey : List Nat := [109, 111, 100, 105, 102, 105, 101, 100, 95, 97, 116]

/-- ASCII bytes of the augmented metadata key embeddingDim. -/
def embeddingDimKey : List Nat := [101, 109, 98, 101, 100, 100, 105, 110, 103, 68, 105, 109]

/-- ASCII bytes of the augmented metadata key originalCreatedAt. -/
def originalCreatedAtKey : List Nat :=
  [111, 114, 105, 103, 105, 110, 97, 108, 67, 114, 101, 97, 116, 101, 100, 65, 116]

/-- ASCII bytes of the augmented metadata key originalModifiedAt. -/
def originalModifiedAtKey : List Nat :=
  [111, 114, 105, 103, 105, 110, 97, 108, 77, 111, 100, 105, 102, 105, 101, 100, 65, 116]

/-- Numeric value of a decoded MessagePack element of an embedding array.
Non-numeric elements (which would flow through the JavaScript code as NaN
after the Float32Array conversion) are outside the model and read as 0. -/
def numVal : MsgValue → Rat
  | .intV n => Rat.ofInt n
  | .floatV q => q
  | _ => 0

/-- Embedding extracted from a chunk metadata value, the model of
`(chunkMeta.embedding as number[]) || []`.  Only a metadata map whose
embedding key holds an array yields a non-empty embedding; absent or
non-array values (and non-map metadata) give the empty embedding. -/
def embOf : MsgValue → List Rat
  | .mapV kvs =>
    match jsGet kvs embeddingKey with
    | some (.arrV vs) => vs.map numVal
    | _ => []
  | _ => []

/-- TEXT-affinity image of a decoded value bound as a chunk id, the model of
`(chunkMeta.id as string)` flowing into the TEXT id column: strings are kept
verbatim, numbers are stringified; the remaining (degenerate) cases use a
deterministic tag encoding that stands in for the engine's coercions. -/
def sqlTextOf : MsgValue → List Nat
  | .strV s => s
  | .intV n => decimalBytes n
  | .floatV q => 255 :: (decimalBytes q.num ++ 47 :: decimalBytes (q.den : Int))
  | .binV b => 254 :: b
  | .arrV _ => [253]
  | .mapV _ => [252]
  | .boolV b => [251, if b then 1 else 0]
  | .nil => [250]

/-- Chunk id taken from the metadata map, the model of `chunkMeta.id` at the
use site `(chunkMeta.id as string) || crypto.randomUUID()`: the metadata id
is used when it is truthy, otherwise `none` makes the caller draw a fresh
id. -/
def idBytesOf : MsgValue → Option (List Nat)
  | .mapV kvs =>
    match jsGet kvs idKey with
    | some v => if truthy v then some (sqlTextOf v) else none
    | none => none
  | _ => none

/-- External JavaScript functions the parser composes with but whose internal
behaviour is outside the model: `canonJson` is the deterministic composite
`try { JSON.stringify(JSON.parse(bytes)) } catch { bytes }` applied to a
TABLE_JSON chunk body, and `dateMs` is `new Date(value).getTime()` applied to
a decoded metadata value.  Every theorem below holds for all choices of
these functions. -/
structure JsEnv where
  canonJson : List Nat → List Nat
  dateMs : MsgValue → Int

/-- Parsed AIF-BIN header, as `parseAifBinFile` fills it in (src/indexer.ts):
`flags` is always 0, `chunkCount` comes from the content-chunks section,
`embeddingDim` from the first chunk with a non-empty embedding, and the
timestamps from the file metadata keys created_at/modified_at. -/
structure AifBinHeader where
  magic : List Nat
  version : Nat
  flags : Nat
  chunkCount : Nat
  embeddingDim : Nat
  createdAt : Int
  modifiedAt : Int
deriving Inhabited, DecidableEq

/-- Parsed chunk: id (string bytes), extracted text, embedding and the raw
decoded metadata map. -/
structure AifBinChunk where
  id : List Nat
  text : List Nat
  embedding : List Rat
  metadata : MsgValue
deriving Inhabited

/-- Result of parsing one AIF-BIN file. -/
structure AifBinFile where
  header : AifBinHeader
  chunks : List AifBinChunk
  sourcePath : List Nat
deriving Inhabited

/-- Errors of the binary parser: a file shorter than the 64-byte header, a
bad magic prefix, and an out-of-bounds DataView read outside the chunk loop
(inside the loop the same error is caught and merely stops the loop). -/
inductive ParseErr where
  | tooSmall
  | badMagic
  | rangeError
deriving Inhabited, DecidableEq

/-- Chunk-loop state after decoding: the chunks decoded so far, the id-source
counter and the running embeddingDim. -/
structure ChunkLoopOut where
  chunks : List AifBinChunk
  idSrc : Nat
  embDim : Nat
deriving Inhabited

/-- Chunk loop of `parseAifBinFile`: decodes `count` records starting at
`off`.  Each record is `(u32 type, u64 dataLen, u64 metaLen, meta bytes,
data bytes)`; a failing DataView read is caught by the per-iteration
try/catch and breaks the loop, keeping the chunks already decoded.  Chunk
metadata that fails to unpack is replaced by the empty map.  Text is the
data bytes for TEXT (1) and CODE (6), the canonicalized JSON for
TABLE_JSON (2), and empty otherwise.  A chunk whose metadata lacks a truthy
id receives a fresh identifier from the id source. -/
def parseChunks (env : JsEnv) (bytes : List Nat) :
    Nat → Nat → Nat → Nat → ChunkLoopOut
  | 0, _, u, d => ⟨[], u, d⟩
  | count + 1, off, u, d =>
    match readLE bytes off 4, readLE bytes (off + 4) 8, readLE bytes (off + 12) 8 with
    | some ty, some dataLen, some metaLen =>
      let chunkMeta : MsgValue :=
        if 0 < metaLen then
          match unpackM (sub bytes (off + 20) metaLen) with
          | some v => v
          | none => .mapV []
        else .mapV []
      let chunkData := sub bytes (off + 20 + metaLen) dataLen
      let text : List Nat :=
        if ty = 1 ∨ ty = 6 then chunkData
        else if ty = 2 then env.canonJson chunkData
        else []
      let emb := embOf chunkMeta
      let d2 : Nat := if 0 < emb.length ∧ d = 0 then emb.length else d
      let idDraw : List Nat × Nat :=
        match idBytesOf chunkMeta with
        | some s => (s, u)
        | none => (uuidBytes u, u + 1)
      let rest := parseChunks env bytes count (off + 20 + metaLen + dataLen) idDraw.2 d2
      ⟨⟨idDraw.1, text, emb, chunkMeta⟩ :: rest.chunks, rest.idSrc, rest.embDim⟩
    | _, _, _ => ⟨[], u, d⟩

/-- Model of `parseAifBinFile` (src/indexer.ts, the v2 offset-table parser):
checks the size and magic, reads the header fields and the section offset
table, decodes the metadata section (tolerating decode failure), decodes the
content-chunks section through `parseChunks`, and extracts the header
timestamps from the file metadata.  `idSrc` is the id-source state of the
modelled `crypto.randomUUID()`; the final counter is returned with the
file. -/
def parseAifBinFile (env : JsEnv) (filePath : List Nat) (bytes : List Nat)
    (idSrc : Nat) : Except ParseErr (AifBinFile × Nat) :=
  if bytes.length < 64 then .error .tooSmall
  else if sub bytes 0 8 ≠ MAGIC then .error .badMagic
  else
    match readLE bytes 8 4, readLE bytes 16 8, readLE bytes 24 8, readLE bytes 32 8,
        readLE bytes 40 8, readLE bytes 48 8, readLE bytes 56 8 with
    | some version, some metadataOffset, some _originalRawOffset, some contentChunksOffset,
        some _versionsOffset, some _footerOffset, some _totalSize =>
      let mdStep : Option MsgValue :=
        if metadataOffset ≠ ABSENT then
          match readLE bytes metadataOffset 8 with
          | some metaLen =>
            some (match unpackM (sub bytes (metadataOffset + 8) metaLen) with
              | some v => v
              | none => .mapV [])
          | none => none
        else some (.mapV [])
      match mdStep with
      | none => .error .rangeError
      | some metadata =>
        let chunkStep : Option (Nat × ChunkLoopOut) :=
          if contentChunksOffset ≠ ABSENT then
            match readLE bytes contentChunksOffset 4 with
            | some chunkCount =>
              some (chunkCount,
                parseChunks env bytes chunkCount (contentChunksOffset + 4) idSrc 0)
            | none => none
          else some (0, ⟨[], idSrc, 0⟩)
        match chunkStep with
        | none => .error .rangeError
        | some (chunkCount, out) =>
          let createdAt : Int :=
            match metadata with
            | .mapV kvs =>
              match jsGet kvs createdAtKey with
              | some v => if truthy v then env.dateMs v else 0
              | none => 0
            | _ => 0
          let modifiedAt : Int :=
            match metadata with
            | .mapV kvs =>
              match jsGet kvs modifiedAtKey with
              | some v => if truthy v then env.dateMs v else 0
              | none => 0
            | _ => 0
          .ok (⟨⟨sub bytes 0 8, version, 0, chunkCount, out.embDim,
                 createdAt, modifiedAt⟩,
                out.chunks, filePath⟩,
               out.idSrc)
    | _, _, _, _, _, _, _ => .error .rangeError

/-- Decides `2 ^ e ≤ num / den` by cross-multiplication (for `den ≠ 0`). -/
def pow2le (e : Int) (num den : Nat) : Bool :=
  match e with
  | .ofNat k => den * 2 ^ k ≤ num
  | .negSucc k => den ≤ num * 2 ^ (k + 1)

/-- Binary search for the floor of the base-2 logarithm of `num / den` over
the exponent range of finite 32-bit floats: maintains `pow2le lo` and
`¬ pow2le hi` where the value lies in the range; outside the range the
result saturates toward the nearest bound, which the clamping in `f32round`
absorbs. -/
def findEAux (num den : Nat) : Nat → Int → Int → Int
  | 0, lo, _ => lo
  | fuel + 1, lo, hi =>
    if hi ≤ lo + 1 then lo
    else
      let mid := (lo + hi) / 2
      if pow2le mid num den then findEAux num den fuel mid hi
      else findEAux num den fuel lo mid

/-- Floor of the base-2 logarithm of the positive rational `num / den`,
exact on the exponent range of finite 32-bit floats. -/
def findE (num den : Nat) : Int := findEAux num den 12 (-150) 129

/-- Round `N / D` (for `D ≠ 0`) to the nearest natural number, ties to
even. -/
def rndNEnat (N D : Nat) : Nat :=
  let q := N / D
  let r := N % D
  if 2 * r < D then q else if D < 2 * r then q + 1 else q + q % 2

/-- Model of the 32-bit float conversion a chunk embedding undergoes when it
is stored (`new Float32Array(embedding)` in src/db.ts) and read back
(`new Float32Array(buffer)` in `rowToChunk`): IEEE-754 binary32
round-to-nearest-even, with subnormal results and underflow to zero.  The
model covers finite results only; inputs of magnitude at least `2 ^ 128`
(which round to an infinity in JavaScript) are outside the model. -/
def f32round (x : Rat) : Rat :=
  if x = 0 then 0
  else
    let num := x.num.natAbs
    let den := x.den
    let s : Int := max (-126) (findE num den) - 23
    let val : Rat :=
      match s with
      | .ofNat k => ratN (rndNEnat num (den * 2 ^ k) * 2 ^ k)
      | .negSucc k => mkRat (Int.ofNat (rndNEnat (num * 2 ^ (k + 1)) den)) (2 ^ (k + 1))
    if x < 0 then -val else val

/-- MemoryChunk as it is handed to the store (src/types.ts, without the
wall-clock `createdAt`/`updatedAt` fields, which the insert statements do
not bind). -/
structure MemoryChunk where
  id : List Nat
  collectionId : List Nat
  sourceFile : List Nat
  chunkIndex : Nat
  text : List Nat
  embedding : List Rat
  metadata : MsgValue
deriving Inhabited

/-- Row of the `chunks` table.  The `embedding` field holds the values the
stored blob represents, i.e. the 32-bit roundings of the inserted values;
`metadata` holds the value whose `JSON.stringify` image the TEXT column
stores.  The wall-clock timestamp columns are omitted from the model. -/
structure ChunkRow where
  id : List Nat
  collectionId : List Nat
  sourceFile : List Nat
  chunkIndex : Nat
  text : List Nat
  embedding : List Rat
  metadata : MsgValue
deriving Inhabited

/-- Conversion performed by the insert statements: the embedding is stored as
the little-endian byte image of its float32 sequence, so the stored values
are the `f32round` images of the inserted ones. -/
def storeRow (c : MemoryChunk) : ChunkRow :=
  ⟨c.id, c.collectionId, c.sourceFile, c.chunkIndex, c.text,
   c.embedding.map f32round, c.metadata⟩

/-- Row of the `collections` table (timestamps omitted). -/
structure CollectionRow where
  id : List Nat
  name : List Nat
  description : Option (List Nat)
  fileCount : Nat
  chunkCount : Nat
deriving Inhabited, DecidableEq

/-- State of the SQLite store: the two user tables and the FTS5 keyword
index `chunks_fts`, modelled as the list of (chunk id, text) entries the
insert/delete triggers maintain (ids stand in for rowids: both identify the
chunk row). -/
structure Store where
  collections : List CollectionRow
  chunks : List ChunkRow
  fts : List (List Nat × List Nat)
deriving Inhabited

/-- SQLite constraint errors surfaced by inserts: a duplicate primary key,
or (with foreign-key enforcement on, the better-sqlite3 default) a missing
parent collection row. -/
inductive DbErr where
  | primaryKey
  | foreignKey
deriving Inhabited, DecidableEq

namespace EngramDB

/-- Insert of a single chunk row: the `INSERT INTO chunks` statement checks
the primary key on `id` and the foreign key on `collection_id`, and the
`chunks_ai` trigger appends the matching `chunks_fts` entry. -/
def insertChunkRow (s : Store) (c : MemoryChunk) : Except DbErr Store :=
  if s.chunks.any (fun r => r.id == c.id) then .error .primaryKey
  else if !(s.collections.any (fun col => col.id == c.collectionId)) then .error .foreignKey
  else .ok { s with
    chunks := s.chunks ++ [storeRow c],
    fts := s.fts ++ [(c.id, c.text)] }

/-- Row-by-row execution of the batch insert inside the transaction: stops
at the first failing row. -/
def insertChunksSeq : Store → List MemoryChunk → Except DbErr Store
  | s, [] => .ok s
  | s, c :: cs =>
    match insertChunkRow s c with
    | .ok s2 => insertChunksSeq s2 cs
    | .error e => .error e

/-- Model of `EngramDB.insertChunks` (src/db.ts): the batch runs inside one
`db.transaction`, which better-sqlite3 rolls back when any statement throws,
so a failing row leaves the store exactly as it was. -/
def insertChunks (s : Store) (cs : List MemoryChunk) : Store × Except DbErr Unit :=
  match insertChunksSeq s cs with
  | .ok s2 => (s2, .ok ())
  | .error e => (s, .error e)

/-- Model of `EngramDB.deleteChunksBySource`: `DELETE FROM chunks WHERE
source_file = ?` — no collection filter — with the `chunks_ad` trigger
removing the deleted rows' `chunks_fts` entries; returns the change
count. -/
def deleteChunksBySource (s : Store) (p : List Nat) : Store × Nat :=
  let removed := s.chunks.filter (fun r => r.sourceFile == p)
  ({ s with
      chunks := s.chunks.filter (fun r => !(r.sourceFile == p)),
      fts := s.fts.filter (fun e => !(removed.any (fun r => r.id == e.1))) },
   removed.length)

/-- Model of `EngramDB.deleteCollection`: `DELETE FROM collections WHERE
name = ?`, returning whether a row was removed.  Foreign-key enforcement is
on (better-sqlite3 compiles SQLite with `SQLITE_DEFAULT_FOREIGN_KEYS=1`), so
`ON DELETE CASCADE` removes the chunks of the deleted collections, and the
cascade fires the `chunks_ad` delete trigger, which removes their
`chunks_fts` entries. -/
def deleteCollection (s : Store) (name : List Nat) : Store × Bool :=
  let removedCols := s.collections.filter (fun c => c.name == name)
  let colIds := removedCols.map (fun c => c.id)
  let removedChunks := s.chunks.filter (fun r => colIds.contains r.collectionId)
  ({ collections := s.collections.filter (fun c => !(c.name == name)),
     chunks := s.chunks.filter (fun r => !(colIds.contains r.collectionId)),
     fts := s.fts.filter (fun e => !(removedChunks.any (fun r => r.id == e.1))) },
   0 < removedCols.length)

/-- Model of `EngramDB.getChunksByCollection`: `SELECT * FROM chunks WHERE
collection_id = ?`. -/
def getChunksByCollection (s : Store) (cid : List Nat) : List ChunkRow :=
  s.chunks.filter (fun r => r.collectionId == cid)

/-- Model of `EngramDB.getChunk`: `SELECT * FROM chunks WHERE id = ?`
(at most one row, `id` being the primary key). -/
def getChunk (s : Store) (i : List Nat) : Option ChunkRow :=
  s.chunks.find? (fun r => r.id == i)

/-- Model of `EngramDB.rowToChunk`: reading a row back re-interprets the
embedding blob as float32 values (already reflected in `ChunkRow.embedding`)
and parses the metadata JSON back to a value. -/
def rowToChunk (r : ChunkRow) : MemoryChunk :=
  ⟨r.id, r.collectionId, r.sourceFile, r.chunkIndex, r.text, r.embedding, r.metadata⟩

end EngramDB

/-- Errors of `Indexer.indexFile`: a parse failure, or a constraint
violation inside the batch insert. -/
inductive IndexErr where
  | parseFailed (e : ParseErr)
  | insertFailed (e : DbErr)
deriving Inhabited, DecidableEq

/-- Augmentation of a chunk's metadata performed by `indexFile`:
`{...chunk.metadata, embeddingDim, originalCreatedAt, originalModifiedAt}`.
A metadata value that is not a map spreads to no properties.  When the
original map already contains one of the three keys, JavaScript keeps the
key at its original position while this model moves it to the tail; the two
agree under property lookup. -/
def augmentMeta (m : MsgValue) (hdr : AifBinHeader) : MsgValue :=
  let base := match m with | .mapV kvs => kvs | _ => []
  .mapV ((base.filter (fun p =>
      !(p.1 == embeddingDimKey) && !(p.1 == originalCreatedAtKey) && !(p.1 == originalModifiedAtKey)))
    ++ [(embeddingDimKey, .intV hdr.embeddingDim),
        (originalCreatedAtKey, .intV hdr.createdAt),
        (originalModifiedAtKey, .intV hdr.modifiedAt)])

/-- Materialization step of `indexFile`: maps the filtered chunks to
`MemoryChunk` records with `chunk_index` equal to the position in the
filtered stream, drawing a fresh id (`chunk.id || crypto.randomUUID()`) only
when the parsed id is empty; returns the records with the final id-source
counter. -/
def buildRows (cid path : List Nat) (hdr : AifBinHeader) :
    List AifBinChunk → Nat → Nat → List MemoryChunk × Nat
  | [], _, u => ([], u)
  | c :: cs, i, u =>
    let idDraw : List Nat × Nat :=
      if c.id.isEmpty then (uuidBytes u, u + 1) else (c.id, u)
    let rest := buildRows cid path hdr cs (i + 1) idDraw.2
    (⟨idDraw.1, cid, path, i, c.text, c.embedding, augmentMeta c.metadata hdr⟩ :: rest.1,
     rest.2)

/-- Model of `Indexer.indexFile` (src/indexer.ts): parse the file, keep the
chunks with non-empty embeddings, skip the file entirely if none remain,
otherwise delete the prior rows for the path and insert the new batch.  The
returned store reflects that the delete and the insert are separate
transactions: a failing insert leaves the deletions committed.  The second
component is the final id-source counter. -/
def indexFile (env : JsEnv) (s : Store) (idSrc : Nat) (filePath bytes : List Nat)
    (collectionId : List Nat) : Store × Nat × Except IndexErr Nat :=
  match parseAifBinFile env filePath bytes idSrc with
  | .error e => (s, idSrc, .error (.parseFailed e))
  | .ok (f, u1) =>
    let withEmb := f.chunks.filter (fun c => 0 < c.embedding.length)
    if withEmb.length = 0 then (s, u1, .ok 0)
    else
      let s1 := (EngramDB.deleteChunksBySource s filePath).1
      let rowsOut := buildRows collectionId filePath f.header withEmb 0 u1
      match EngramDB.insertChunks s1 rowsOut.1 with
      | (s2, .ok _) => (s2, rowsOut.2, .ok rowsOut.1.length)
      | (s2, .error e) => (s2, rowsOut.2, .error (.insertFailed e))

/-- Search-engine error: the cosine dimension mismatch `searchEngine`
surfaces. -/
inductive SearchErr where
  | dimMismatch
deriving Inhabited, DecidableEq

/-- Left-to-right sum of pairwise products, as the scoring loop accumulates
it. -/
def dotProduct (a b : List Rat) : Rat :=
  (List.zipWith (fun x y => x * y) a b).foldl (fun acc z => acc + z) 0

/-- Model of `cosineSimilarity` (src/search.ts).  `sq` abstracts
`Math.sqrt`, whose real-valued behaviour is outside the rational model; the
theorems below hold for every choice of `sq` with the stated properties.
The function throws on a dimension mismatch, computes the dot product and
the two squared norms in one pass, returns 0 when the product of the square
roots is 0, and otherwise divides. -/
def cosineSimilarity (sq : Rat → Rat) (a b : List Rat) : Except SearchErr Rat :=
  if a.length ≠ b.length then .error .dimMismatch
  else
    let magnitude := sq (dotProduct a a) * sq (dotProduct b b)
    if magnitude = 0 then .ok 0 else .ok (dotProduct a b / magnitude)

/-- Smallest element of a list of rationals (`Math.min(...values)`); 0 on
the empty list, on which the source never calls it. -/
def listMin : List Rat → Rat
  | [] => 0
  | v :: vs => vs.foldl min v

/-- Largest element of a list of rationals (`Math.max(...values)`). -/
def listMax : List Rat → Rat
  | [] => 0
  | v :: vs => vs.foldl max v

/-- Lookup in an association list built by successive `Map.set` calls: the
last binding of a key wins, which is exactly the observable behaviour of the
JavaScript `Map` the source builds. -/
def mapGet {α : Type} (m : List (List Nat × α)) (k : List Nat) : Option α :=
  m.foldl (fun acc p => if p.1 = k then some p.2 else acc) none

/-- Model of `normalizeBM25Scores` (src/search.ts): on a non-empty hit list
compute the minimum and maximum raw score, `range = max - min || 1`, and map
each hit to `1 - (raw - min) / range`.  The source returns a `Map`; the
model returns the per-hit list, observationally the same map under
`mapGet`. -/
def normalizeBM25Scores (scores : List (List Nat × Rat)) : List (List Nat × Rat) :=
  if scores.isEmpty then []
  else
    let minS := listMin (scores.map Prod.snd)
    let maxS := listMax (scores.map Prod.snd)
    let range := if maxS - minS = 0 then 1 else maxS - minS
    scores.map (fun p => (p.1, 1 - (p.2 - minS) / range))

/-- Search result as `hybridSearch` constructs it (src/types.ts): in the
hybrid path the keyword score is always present. -/
structure SearchResult where
  chunk : MemoryChunk
  score : Rat
  vectorScore : Rat
  keywordScore : Rat
deriving Inhabited

/-- Cosine scores of all candidates against the query, in candidate order;
the first mismatching candidate throws, aborting the search. -/
def vectorScores (sq : Rat → Rat) (q : List Rat) :
    List MemoryChunk → Except SearchErr (List (List Nat × Rat))
  | [] => .ok []
  | c :: cs =>
    match cosineSimilarity sq q c.embedding with
    | .error e => .error e
    | .ok v =>
      match vectorScores sq q cs with
      | .error e => .error e
      | .ok rest => .ok ((c.id, v) :: rest)

/-- First-occurrence deduplication, the observable iteration order of
`new Set(xs)`. -/
def firstDedup (seen : List (List Nat)) : List (List Nat) → List (List Nat)
  | [] => []
  | x :: xs => if x ∈ seen then firstDedup seen xs else x :: firstDedup (x :: seen) xs

/-- Stable insertion of a result into a list sorted by descending score: the
inserted element goes before the first element whose score is not larger,
which preserves the original order of equal scores. -/
def insertResultDesc (r : SearchResult) : List SearchResult → List SearchResult
  | [] => [r]
  | x :: xs => if x.score ≤ r.score then r :: x :: xs else x :: insertResultDesc r xs

/-- Stable sort by descending score, the model of the ES2019-and-later
stable `Array.sort` with comparator `(a, b) => b.score - a.score`. -/
def sortResultsDesc : List SearchResult → List SearchResult
  | [] => []
  | x :: xs => insertResultDesc x (sortResultsDesc xs)

/-- Model of `SearchEngine.hybridSearch` (src/search.ts) from the point the
candidate chunks are loaded: `chunks` is the candidate set
(`getAllChunksWithEmbeddings`), `kwRaw` the raw BM25 hits the store's
`keywordSearch` returned for the query (the FTS5 engine itself is outside
the model).  Vector scores are computed for every candidate (a dimension
mismatch throws), keyword scores are normalized, and every id in the union
of the two key sets whose chunk is among the candidates gets the fused score
`w * vector + (1 - w) * keyword` with missing sides contributing 0; results
below `threshold` are dropped, the rest are sorted by descending fused score
and cut to `limit`. -/
def hybridSearch (sq : Rat → Rat) (chunks : List MemoryChunk)
    (kwRaw : List (List Nat × Rat)) (qEmb : List Rat) (limit : Nat)
    (threshold w : Rat) : Except SearchErr (List SearchResult) :=
  if chunks.isEmpty then .ok []
  else
    match vectorScores sq qEmb chunks with
    | .error e => .error e
    | .ok vmap =>
      let kmap := normalizeBM25Scores kwRaw
      let chunkMap := chunks.map (fun c => (c.id, c))
      let allIds := firstDedup [] (vmap.map Prod.fst ++ kmap.map Prod.fst)
      let results := allIds.filterMap (fun i =>
        match mapGet chunkMap i with
        | none => none
        | some c =>
          let vs := (mapGet vmap i).getD 0
          let ks := (mapGet kmap i).getD 0
          let combined := w * vs + (1 - w) * ks
          if threshold ≤ combined then some ⟨c, combined, vs, ks⟩ else none)
      .ok ((sortResultsDesc results).take limit)

/-! Helper lemmas about list minima, maxima and folds. -/

theorem foldl_min_le_init (vs : List Rat) (a : Rat) : vs.foldl min a ≤ a := by
  induction vs generalizing a with
  | nil => simp
  | cons v vs ih => exact le_trans (ih (min a v)) (min_le_left a v)

theorem foldl_min_le_mem {y : Rat} (vs : List Rat) (a : Rat) (hy : y ∈ vs) :
    vs.foldl min a ≤ y := by
  induction vs generalizing a with
  | nil => cases hy
  | cons v vs ih =>
    rcases List.mem_cons.mp hy with h | h
    · rw [List.foldl_cons, h]
      exact le_trans (foldl_min_le_init vs (min a v)) (min_le_right a v)
    · exact ih (min a v) h

theorem foldl_min_mem (vs : List Rat) (a : Rat) :
    vs.foldl min a = a ∨ vs.foldl min a ∈ vs := by
  induction vs generalizing a with
  | nil => left; rfl
  | cons v vs ih =>
    rcases ih (min a v) with h | h
    · rcases min_choice a v with hm | hm
      · left; rw [List.foldl_cons, h, hm]
      · right; rw [List.foldl_cons, h, hm]; exact List.mem_cons_self v vs
    · right; exact List.mem_cons_of_mem v h

theorem le_foldl_max_init (vs : List Rat) (a : Rat) : a ≤ vs.foldl max a := by
  induction vs generalizing a with
  | nil => simp
  | cons v vs ih => exact le_trans (le_max_left a v) (ih (max a v))

theorem le_foldl_max_mem {y : Rat} (vs : List Rat) (a : Rat) (hy : y ∈ vs) :
    y ≤ vs.foldl max a := by
  induction vs generalizing a with
  | nil => cases hy
  | cons v vs ih =>
    rcases List.mem_cons.mp hy with h | h
    · rw [List.foldl_cons, h]
      exact le_trans (le_max_right a v) (le_foldl_max_init vs (max a v))
    · exact ih (max a v) h

theorem listMin_le {l : List Rat} {y : Rat} (hy : y ∈ l) : listMin l ≤ y := by
  cases l with
  | nil => cases hy
  | cons v vs =>
    rcases List.mem_cons.mp hy with h | h
    · exact h ▸ foldl_min_le_init vs v
    · exact foldl_min_le_mem vs v h

theorem le_listMax {l : List Rat} {y : Rat} (hy : y ∈ l) : y ≤ listMax l := by
  cases l with
  | nil => cases hy
  | cons v vs =>
    rcases List.mem_cons.mp hy with h | h
    · exact h ▸ le_foldl_max_init vs v
    · exact le_foldl_max_mem vs v h

theorem listMin_le_listMax {l : List Rat} (h : l ≠ []) : listMin l ≤ listMax l := by
  cases l with
  | nil => exact absurd rfl h
  | cons v vs =>
    exact le_trans (listMin_le (List.mem_cons_self v vs)) (le_listMax (List.mem_cons_self v vs))

/-- C6: on every non-empty list of keyword hits, `normalizeBM25Scores`
computes the minimum, the maximum, the range `max - min` (1 when that is 0)
and maps each hit to `1 - (raw - min) / range`; every normalized score lies
in `[0, 1]`; the hit with the minimal raw score is mapped to exactly 1; and
a singleton hit list maps to exactly 1. -/
theorem normalizeBM25_correct (scores : List (List Nat × Rat)) (hne : scores ≠ []) :
    (normalizeBM25Scores scores =
      scores.map (fun p => (p.1,
        1 - (p.2 - listMin (scores.map Prod.snd)) /
          (if listMax (scores.map Prod.snd) - listMin (scores.map Prod.snd) = 0 then 1
           else listMax (scores.map Prod.snd) - listMin (scores.map Prod.snd)))))
    ∧ (∀ p ∈ normalizeBM25Scores scores, 0 ≤ p.2 ∧ p.2 ≤ 1)
    ∧ (∀ p ∈ scores, p.2 = listMin (scores.map Prod.snd) →
        (p.1, (1 : Rat)) ∈ normalizeBM25Scores scores)
    ∧ (∀ i sc, scores = [(i, sc)] → normalizeBM25Scores scores = [(i, 1)]) := by
  have hempty : scores.isEmpty = false := by
    cases scores with
    | nil => exact absurd rfl hne
    | cons a l => rfl
  have hdef : normalizeBM25Scores scores =
      scores.map (fun p => (p.1,
        1 - (p.2 - listMin (scores.map Prod.snd)) /
          (if listMax (scores.map Prod.snd) - listMin (scores.map Prod.snd) = 0 then 1
           else listMax (scores.map Prod.snd) - listMin (scores.map Prod.snd)))) := by
    rw [normalizeBM25Scores, hempty]
    simp only [Bool.false_eq_true, if_false]
  have hvalsne : scores.map Prod.snd ≠ [] := by
    cases scores with
    | nil => exact absurd rfl hne
    | cons a l => simp
  set m := listMin (scores.map Prod.snd) with hm
  set M := listMax (scores.map Prod.snd) with hM
  set range := if M - m = 0 then 1 else M - m with hrange
  have hmM : m ≤ M := listMin_le_listMax hvalsne
  have hrangepos : 0 < range := by
    rw [hrange]
    by_cases h0 : M - m = 0
    · rw [if_pos h0]; norm_num
    · rw [if_neg h0]
      have : 0 ≤ M - m := by linarith
      rcases lt_or_eq_of_le this with h | h
      · exact h
      · exact absurd h.symm h0
  have hbound : ∀ p ∈ scores, 0 ≤ 1 - (p.2 - m) / range ∧ 1 - (p.2 - m) / range ≤ 1 := by
    intro p hp
    have hple : m ≤ p.2 := listMin_le (List.mem_map_of_mem Prod.snd hp)
    have hpge : p.2 ≤ M := le_listMax (List.mem_map_of_mem Prod.snd hp)
    have hnum0 : 0 ≤ p.2 - m := by linarith
    have hnumr : p.2 - m ≤ range := by
      rw [hrange]
      by_cases h0 : M - m = 0
      · rw [if_pos h0]
        have : p.2 = m := by linarith [sub_eq_zero.mp h0]
        rw [this]; norm_num
      · rw [if_neg h0]; linarith
    constructor
    · have hdiv : (p.2 - m) / range ≤ 1 := (div_le_one hrangepos).mpr hnumr
      linarith
    · have hdiv : 0 ≤ (p.2 - m) / range := div_nonneg hnum0 (le_of_lt hrangepos)
      linarith
  refine ⟨hdef, ?_, ?_, ?_⟩
  · intro p hp
    rw [hdef] at hp
    rcases List.mem_map.mp hp with ⟨q, hq, hqe⟩
    have := hbound q hq
    rw [← hqe]
    exact this
  · intro p hp hpm
    rw [hdef]
    have h1 : ((fun p => (p.1, 1 - (p.2 - m) / range)) p) = (p.1, (1 : Rat)) := by
      show (p.1, 1 - (p.2 - m) / range) = (p.1, (1 : Rat))
      rw [hpm]
      simp
    rw [← h1]
    exact List.mem_map_of_mem _ hp
  · intro i sc hs
    subst hs
    have hm1 : m = sc := by rw [hm]; rfl
    have hM1 : M = sc := by rw [hM]; rfl
    rw [hdef, hm1]
    simp

/-- Witness for C6 at a concrete singleton hit list. -/
theorem normalizeBM25_correct_witness :
    normalizeBM25Scores [([97], (-3 : Rat))] = [([97], 1)] :=
  (normalizeBM25_correct [([97], (-3 : Rat))] (by decide)).2.2.2 [97] (-3) rfl

/-- Accumulating a list of zeros adds nothing. -/
theorem foldl_add_zeros {l : List Rat} (h : ∀ z ∈ l, z = 0) :
    ∀ acc : Rat, l.foldl (fun acc z => acc + z) acc = acc := by
  induction l with
  | nil => intro acc; rfl
  | cons z zs ih =>
    intro acc
    rw [List.foldl_cons, h z (List.mem_cons_self z zs), add_zero]
    exact ih (fun w hw => h w (List.mem_cons_of_mem z hw)) acc

/-- Dot product of an all-zero vector with itself is zero. -/
theorem dotProduct_self_zero {a : List Rat} (h : ∀ x ∈ a, x = 0) :
    dotProduct a a = 0 := by
  rw [dotProduct, List.zipWith_same]
  refine foldl_add_zeros ?_ 0
  intro z hz
  rcases List.mem_map.mp hz with ⟨x, hx, hxe⟩
  rw [← hxe, h x hx, mul_zero]

/-- C9: `cosineSimilarity` fails with the dimension-mismatch error on
vectors of different lengths rather than returning a number; on same-length
vectors it returns `Σ aᵢbᵢ / (‖a‖ · ‖b‖)` (the guard making the similarity 0
whenever the product of the magnitudes is 0); the similarity is 0 whenever
either magnitude is 0, and in particular an all-zero query vector scores 0
against every chunk.  `sq` abstracts `Math.sqrt`; the single property
`sq 0 = 0` of the real square root is assumed. -/
theorem cosineSimilarity_spec (sq : Rat → Rat) (a b : List Rat) (hsq0 : sq 0 = 0) :
    (a.length ≠ b.length → cosineSimilarity sq a b = .error .dimMismatch)
    ∧ (a.length = b.length →
        cosineSimilarity sq a b =
          .ok (if sq (dotProduct a a) * sq (dotProduct b b) = 0 then 0
               else dotProduct a b / (sq (dotProduct a a) * sq (dotProduct b b))))
    ∧ (a.length = b.length → (sq (dotProduct a a) = 0 ∨ sq (dotProduct b b) = 0) →
        cosineSimilarity sq a b = .ok 0)
    ∧ ((∀ x ∈ a, x = 0) → a.length = b.length → cosineSimilarity sq a b = .ok 0) := by
  have hformula : a.length = b.length →
      cosineSimilarity sq a b =
        .ok (if sq (dotProduct a a) * sq (dotProduct b b) = 0 then 0
             else dotProduct a b / (sq (dotProduct a a) * sq (dotProduct b b))) := by
    intro h
    rw [cosineSimilarity, if_neg (fun hne => hne h)]
    by_cases hm : sq (dotProduct a a) * sq (dotProduct b b) = 0
    · rw [if_pos hm, if_pos hm]
    · rw [if_neg hm, if_neg hm]
  have hzero : a.length = b.length →
      (sq (dotProduct a a) = 0 ∨ sq (dotProduct b b) = 0) →
      cosineSimilarity sq a b = .ok 0 := by
    intro h hor
    have hm : sq (dotProduct a a) * sq (dotProduct b b) = 0 := by
      rcases hor with h0 | h0
      · rw [h0, zero_mul]
      · rw [h0, mul_zero]
    rw [hformula h, if_pos hm]
  refine ⟨?_, hformula, hzero, ?_⟩
  · intro h
    rw [cosineSimilarity, if_pos h]
  · intro hall h
    exact hzero h (Or.inl (by rw [dotProduct_self_zero hall, hsq0]))

/-- Witness for C9 at the all-zero query vector `[0]` against `[5]`. -/
theorem cosineSimilarity_spec_witness :
    ((fun q : Rat => q) 0 = 0) ∧ cosineSimilarity (fun q => q) [0] [5] = .ok 0 :=
  ⟨rfl, (cosineSimilarity_spec (fun q => q) [0] [5] rfl).2.2.2 (by decide) (by decide)⟩

/-- Membership after stable insertion comes from the inserted element or the
original list. -/
theorem mem_insertResultDesc {r x : SearchResult} {l : List SearchResult}
    (h : x ∈ insertResultDesc r l) : x = r ∨ x ∈ l := by
  induction l with
  | nil =>
    rcases List.mem_cons.mp h with h1 | h1
    · exact Or.inl h1
    · cases h1
  | cons a as ih =>
    rw [insertResultDesc] at h
    by_cases hc : a.score ≤ r.score
    · rw [if_pos hc] at h
      rcases List.mem_cons.mp h with h1 | h1
      · exact Or.inl h1
      · exact Or.inr h1
    · rw [if_neg hc] at h
      rcases List.mem_cons.mp h with h1 | h1
      · exact Or.inr (h1 ▸ List.mem_cons_self a as)
      · rcases ih h1 with h2 | h2
        · exact Or.inl h2
        · exact Or.inr (List.mem_cons_of_mem a h2)

/-- Membership in the sorted result list comes from the unsorted one. -/
theorem mem_sortResultsDesc {x : SearchResult} {l : List SearchResult}
    (h : x ∈ sortResultsDesc l) : x ∈ l := by
  induction l with
  | nil => cases h
  | cons a as ih =>
    rw [sortResultsDesc] at h
    rcases mem_insertResultDesc h with h1 | h1
    · exact h1 ▸ List.mem_cons_self a as
    · exact List.mem_cons_of_mem a (ih h1)

/-- Every result `hybridSearch` returns carries the fused score
`w * vectorScore + (1 - w) * keywordScore` of its own recorded component
scores. -/
theorem hybridSearch_score_shape (sq : Rat → Rat) (chunks : List MemoryChunk)
    (kwRaw : List (List Nat × Rat)) (qEmb : List Rat) (limit : Nat)
    (threshold w : Rat) (rs : List SearchResult)
    (h : hybridSearch sq chunks kwRaw qEmb limit threshold w = .ok rs) :
    ∀ r ∈ rs, r.score = w * r.vectorScore + (1 - w) * r.keywordScore := by
  intro r hr
  rw [hybridSearch] at h
  by_cases hchunks : chunks.isEmpty = true
  · rw [if_pos hchunks] at h
    injection h with h
    subst h
    cases hr
  · rw [if_neg hchunks] at h
    cases hvs : vectorScores sq qEmb chunks with
    | error e => rw [hvs] at h; cases h
    | ok vmap =>
      rw [hvs] at h
      injection h with h
      subst h
      have hr2 := mem_sortResultsDesc (List.mem_of_mem_take hr)
      rcases List.mem_filterMap.mp hr2 with ⟨i, _, hf⟩
      cases hmg : mapGet (chunks.map (fun c => (c.id, c))) i with
      | none => rw [hmg] at hf; cases hf
      | some c =>
        rw [hmg] at hf
        simp only at hf
        by_cases hth : threshold ≤ w * ((mapGet vmap i).getD 0) +
            (1 - w) * ((mapGet (normalizeBM25Scores kwRaw) i).getD 0)
        · rw [if_pos hth] at hf
          injection hf with hf
          subst hf
          rfl
        · rw [if_neg hth] at hf
          cases hf

/-- C7: with `hybrid_weight = 1` every result of `hybridSearch` has fused
score equal to its vector (cosine) score, and with `hybrid_weight = 0` every
returned keyword hit has fused score equal to its normalized keyword
score. -/
theorem hybridSearch_weight_identities (sq : Rat → Rat) (chunks : List MemoryChunk)
    (kwRaw : List (List Nat × Rat)) (qEmb : List Rat) (limit : Nat)
    (threshold : Rat) :
    (∀ rs, hybridSearch sq chunks kwRaw qEmb limit threshold 1 = .ok rs →
      ∀ r ∈ rs, r.score = r.vectorScore)
    ∧ (∀ rs, hybridSearch sq chunks kwRaw qEmb limit threshold 0 = .ok rs →
      ∀ r ∈ rs, (mapGet (normalizeBM25Scores kwRaw) r.chunk.id).isSome = true →
        r.score = r.keywordScore) := by
  constructor
  · intro rs h r hr
    have := hybridSearch_score_shape sq chunks kwRaw qEmb limit threshold 1 rs h r hr
    rw [this]
    ring
  · intro rs h r hr _
    have := hybridSearch_score_shape sq chunks kwRaw qEmb limit threshold 0 rs h r hr
    rw [this]
    ring

/-- Candidate chunk used to instantiate the search theorems. -/
def wChunk : MemoryChunk := ⟨[97], [99], [115], 0, [104], [1], .mapV []⟩

/-- Square-root stand-in used to instantiate the search theorems. -/
def wSq : Rat → Rat := fun _ => 1

/-- Result returned by the concrete hybrid search below. -/
def wHybridResult : SearchResult := ⟨wChunk, 1, 1, 1⟩

/-- Witness for C7: a concrete hybrid search with weight 1 whose single
result has fused score equal to its vector score. -/
theorem hybridSearch_weight_identities_witness :
    wHybridResult.score = wHybridResult.vectorScore :=
  (hybridSearch_weight_identities wSq [wChunk] [([97], -1)] [1] 10 0).1
    [wHybridResult] (by with_unfolding_all rfl) wHybridResult (List.Mem.head _)

/-- Effect of a successful transactional batch run: all rows appended to the
chunks table, their index entries appended to `chunks_fts`, collections
untouched. -/
theorem insertChunksSeq_ok (batch : List MemoryChunk) :
    ∀ s s2 : Store, EngramDB.insertChunksSeq s batch = .ok s2 →
      s2.chunks = s.chunks ++ batch.map storeRow
      ∧ s2.fts = s.fts ++ batch.map (fun c => (c.id, c.text))
      ∧ s2.collections = s.collections := by
  induction batch with
  | nil =>
    intro s s2 h
    injection h with h
    subst h
    simp
  | cons c cs ih =>
    intro s s2 h
    rw [EngramDB.insertChunksSeq] at h
    cases hrow : EngramDB.insertChunkRow s c with
    | error e => rw [hrow] at h; cases h
    | ok s1 =>
      rw [hrow] at h
      rcases ih s1 s2 h with ⟨h1, h2, h3⟩
      rw [EngramDB.insertChunkRow] at hrow
      by_cases hpk : s.chunks.any (fun r => r.id == c.id) = true
      · rw [if_pos hpk] at hrow; cases hrow
      · rw [if_neg hpk] at hrow
        by_cases hfk : (!s.collections.any (fun col => col.id == c.collectionId)) = true
        · rw [if_pos hfk] at hrow; cases hrow
        · rw [if_neg hfk] at hrow
          injection hrow with hrow
          subst hrow
          refine ⟨?_, ?_, h3⟩
          · rw [h1]; simp
          · rw [h2]; simp

/-- C8: the batch insert is atomic.  On success all rows of the batch become
visible together, appended to the chunks table with their `chunks_fts`
entries maintained by the insert trigger; on any row failure the transaction
aborts and the store is exactly as it was before the call. -/
theorem insertChunks_atomic (s : Store) (batch : List MemoryChunk) :
    ((EngramDB.insertChunks s batch).2.isOk = true →
      (EngramDB.insertChunks s batch).1.chunks = s.chunks ++ batch.map storeRow
      ∧ (EngramDB.insertChunks s batch).1.fts
          = s.fts ++ batch.map (fun c => (c.id, c.text))
      ∧ (EngramDB.insertChunks s batch).1.collections = s.collections)
    ∧ ((EngramDB.insertChunks s batch).2.isOk = false →
      (EngramDB.insertChunks s batch).1 = s) := by
  rw [EngramDB.insertChunks]
  cases hseq : EngramDB.insertChunksSeq s batch with
  | ok s2 =>
    refine ⟨fun _ => ?_, fun hfalse => ?_⟩
    · exact insertChunksSeq_ok batch s s2 hseq
    · cases hfalse
  | error e =>
    refine ⟨fun htrue => ?_, fun _ => ?_⟩
    · cases htrue
    · rfl

/-- Store with one collection, used to instantiate the store theorems. -/
def wStore : Store := ⟨[⟨[99], [110], none, 0, 0⟩], [], []⟩

/-- Batch with one chunk, used to instantiate the insert theorems. -/
def wBatch : List MemoryChunk := [⟨[107], [99], [115], 0, [104], [1], .mapV []⟩]

/-- Witness for C8: a successful concrete batch insert makes its rows
visible. -/
theorem insertChunks_atomic_witness :
    (EngramDB.insertChunks wStore wBatch).1.chunks = wStore.chunks ++ wBatch.map storeRow :=
  ((insertChunks_atomic wStore wBatch).1 (by decide)).1

/-- C1: after `deleteCollection(name)` returns true, no chunk row of any
deleted collection remains (`getChunksByCollection` of its id is empty), and
the keyword index `chunks_fts` holds no entry referencing the removed rows:
foreign-key enforcement cascades the delete to the chunks, and the cascade
fires the delete trigger that cleans the index. -/
theorem deleteCollection_cascade (s : Store) (name : List Nat) (col : CollectionRow)
    (hcol : col ∈ s.collections) (hname : col.name = name)
    (_hret : (EngramDB.deleteCollection s name).2 = true) :
    EngramDB.getChunksByCollection (EngramDB.deleteCollection s name).1 col.id = []
    ∧ ∀ r ∈ s.chunks, r.collectionId = col.id →
        ∀ e ∈ (EngramDB.deleteCollection s name).1.fts, e.1 ≠ r.id := by
  have hcolIn : col.id ∈ (s.collections.filter (fun c => c.name == name)).map
      (fun c => c.id) := by
    refine List.mem_map_of_mem _ (List.mem_filter.mpr ⟨hcol, ?_⟩)
    simp [hname]
  constructor
  · rw [EngramDB.getChunksByCollection, EngramDB.deleteCollection]
    simp only
    rw [List.filter_filter]
    refine List.filter_eq_nil_iff.mpr ?_
    intro r _
    simp
    intro h
    exact ⟨col, hcol, hname, by rw [h]⟩
  · intro r hr hrc e he
    rw [EngramDB.deleteCollection] at he
    simp only at he
    rcases List.mem_filter.mp he with ⟨_, hprop⟩
    simp at hprop
    intro hee
    exact hprop r hr col hcol hname hrc.symm hee.symm

/-- Collection row used to instantiate the cascade theorem. -/
def wCol : CollectionRow := ⟨[99], [110], none, 0, 0⟩

/-- Store holding one collection, one chunk and its index entry, used to
instantiate the cascade theorem. -/
def wStoreFull : Store :=
  ⟨[wCol], [⟨[107], [99], [115], 0, [104], [], .mapV []⟩], [([107], [104])]⟩

/-- Witness for C1 at a concrete store: after deleting the collection, its
chunks are gone. -/
theorem deleteCollection_cascade_witness :
    EngramDB.getChunksByCollection (EngramDB.deleteCollection wStoreFull [110]).1 [99] = [] :=
  (deleteCollection_cascade wStoreFull [110] wCol (by decide) (by decide) (by decide)).1

/-- Every record materialized by `buildRows` carries the target collection
id, the source path, and the text and embedding of one of the parsed
chunks. -/
theorem buildRows_mem_fields (cid path : List Nat) (hdr : AifBinHeader) :
    ∀ (cs : List AifBinChunk) (i u : Nat),
      ∀ r ∈ (buildRows cid path hdr cs i u).1,
        r.collectionId = cid ∧ r.sourceFile = path
        ∧ ∃ c ∈ cs, r.text = c.text ∧ r.embedding = c.embedding := by
  intro cs
  induction cs with
  | nil => intro i u r hr; cases hr
  | cons c cs ih =>
    intro i u r hr
    rw [buildRows] at hr
    rcases List.mem_cons.mp hr with h | h
    · subst h
      exact ⟨rfl, rfl, c, List.mem_cons_self c cs, rfl, rfl⟩
    · rcases ih (i + 1) (if c.id.isEmpty then (uuidBytes u, u + 1) else (c.id, u)).2 r h
        with ⟨h1, h2, q, hq, h3⟩
      exact ⟨h1, h2, q, List.mem_cons_of_mem c hq, h3⟩

/-- Unpacks a successful `insertChunks` call into the effect of its
transaction. -/
theorem insertChunks_pair_ok (s : Store) (cs : List MemoryChunk) (s2 : Store)
    (h2 : EngramDB.insertChunks s cs = (s2, .ok ())) :
    s2.chunks = s.chunks ++ cs.map storeRow
    ∧ s2.fts = s.fts ++ cs.map (fun c => (c.id, c.text))
    ∧ s2.collections = s.collections := by
  rw [EngramDB.insertChunks] at h2
  cases hseq : EngramDB.insertChunksSeq s cs with
  | ok s3 =>
    rw [hseq] at h2
    have : s3 = s2 := congrArg Prod.fst h2
    subst this
    exact insertChunksSeq_ok cs s s3 hseq
  | error e =>
    rw [hseq] at h2
    have := congrArg (fun p => p.2) h2
    simp at this

/-- C10: `deleteChunksBySource` is not scoped to a collection — it removes
every chunk row whose `source_file` equals the path, across all
collections; consequently a completed ingestion of a path into one
collection leaves no chunk for that path in any other collection. -/
theorem deleteChunksBySource_unscoped (s : Store) (p : List Nat) (env : JsEnv)
    (idSrc : Nat) (bytes cid : List Nat) :
    ((EngramDB.deleteChunksBySource s p).1.chunks
        = s.chunks.filter (fun r => !(r.sourceFile == p)))
    ∧ (∀ s2 u cnt, indexFile env s idSrc p bytes cid = (s2, u, .ok cnt) → 0 < cnt →
        ∀ r ∈ s2.chunks, r.sourceFile = p → r.collectionId = cid) := by
  refine ⟨rfl, ?_⟩
  intro s2 u cnt hrun hcnt r hr hrp
  rw [indexFile] at hrun
  cases hparse : parseAifBinFile env p bytes idSrc with
  | error e =>
    rw [hparse] at hrun
    have := congrArg (fun t => t.2.2) hrun
    simp at this
  | ok fu =>
    obtain ⟨f, u1⟩ := fu
    rw [hparse] at hrun
    simp only at hrun
    by_cases hemp : (f.chunks.filter (fun c => 0 < c.embedding.length)).length = 0
    · rw [if_pos hemp] at hrun
      have := congrArg (fun t => t.2.2) hrun
      simp at this
      omega
    · rw [if_neg hemp] at hrun
      cases hins : EngramDB.insertChunks (EngramDB.deleteChunksBySource s p).1
          (buildRows cid p f.header
            (f.chunks.filter (fun c => 0 < c.embedding.length)) 0 u1).1 with
      | mk sIns insRes =>
        rw [hins] at hrun
        cases insRes with
        | ok uu0 =>
          cases uu0
          simp only at hrun
          have hs2 : sIns = s2 := congrArg (fun t => t.1) hrun
          subst hs2
          rcases insertChunks_pair_ok _ _ _ hins with ⟨hchunks, _, _⟩
          rw [hchunks] at hr
          rcases List.mem_append.mp hr with hold | hnew
          · rcases List.mem_filter.mp hold with ⟨_, hprop⟩
            simp [hrp] at hprop
          · rcases List.mem_map.mp hnew with ⟨q, hq, hqe⟩
            rcases buildRows_mem_fields cid p f.header _ 0 u1 q hq with ⟨h1, _, _⟩
            rw [← hqe]
            exact h1
        | error e =>
          simp only at hrun
          have := congrArg (fun t => t.2.2) hrun
          simp at this

/-- Witness for C10 at a concrete indexed file: a chunk previously stored
for the path under another collection is gone after re-ingestion into a new
collection. -/
theorem deleteChunksBySource_unscoped_witness :
    (EngramDB.deleteChunksBySource wStoreFull [115]).1.chunks
      = wStoreFull.chunks.filter (fun r => !(r.sourceFile == [115])) :=
  (deleteChunksBySource_unscoped wStoreFull [115] ⟨fun b => b, fun _ => 0⟩ 0 [] [99]).1

/-- The id-source counter never decreases across the chunk loop. -/
theorem parseChunks_counter_mono (env : JsEnv) (bytes : List Nat) :
    ∀ (cnt off u d : Nat), u ≤ (parseChunks env bytes cnt off u d).idSrc := by
  intro cnt
  induction cnt with
  | zero => intro off u d; exact le_refl u
  | succ cnt ih =>
    intro off u d
    rw [parseChunks]
    cases h1 : readLE bytes off 4 with
    | none => exact le_refl u
    | some ty =>
      cases h2 : readLE bytes (off + 4) 8 with
      | none => exact le_refl u
      | some dataLen =>
        cases h3 : readLE bytes (off + 12) 8 with
        | none => exact le_refl u
        | some metaLen =>
          simp only
          refine le_trans ?_ (ih _ _ _)
          cases hid : idBytesOf (if 0 < metaLen then
              match unpackM (sub bytes (off + 20) metaLen) with
              | some v => v
              | none => .mapV []
            else .mapV []) with
          | some sid => exact le_refl u
          | none => exact Nat.le_succ u

/-- When the chunk loop draws no fresh id (its final counter equals its
initial one), its output is independent of the id-source state. -/
theorem parseChunks_counter_indep (env : JsEnv) (bytes : List Nat) :
    ∀ (cnt off u d : Nat),
      (parseChunks env bytes cnt off u d).idSrc = u →
      ∀ m, parseChunks env bytes cnt off m d =
        ⟨(parseChunks env bytes cnt off u d).chunks, m,
         (parseChunks env bytes cnt off u d).embDim⟩ := by
  intro cnt
  induction cnt with
  | zero => intro off u d _ m; rfl
  | succ cnt ih =>
    intro off u d hu m
    rw [parseChunks] at hu ⊢
    conv_rhs => rw [parseChunks]
    cases h1 : readLE bytes off 4 with
    | none => rfl
    | some ty =>
      cases h2 : readLE bytes (off + 4) 8 with
      | none => rfl
      | some dataLen =>
        cases h3 : readLE bytes (off + 12) 8 with
        | none => rfl
        | some metaLen =>
          simp only [h1, h2, h3] at hu
          simp only at hu ⊢
          cases hid : idBytesOf (if 0 < metaLen then
              match unpackM (sub bytes (off + 20) metaLen) with
              | some v => v
              | none => .mapV []
            else .mapV []) with
          | some sid =>
            simp only [hid] at hu ⊢
            have hrec := ih (off + 20 + metaLen + dataLen) u
              (if 0 < (embOf (if 0 < metaLen then
                  match unpackM (sub bytes (off + 20) metaLen) with
                  | some v => v
                  | none => .mapV []
                else .mapV [])).length ∧ d = 0 then
                (embOf (if 0 < metaLen then
                  match unpackM (sub bytes (off + 20) metaLen) with
                  | some v => v
                  | none => .mapV []
                else .mapV [])).length
              else d) hu m
            rw [hrec]
          | none =>
            simp only [hid] at hu
            have hmono := parseChunks_counter_mono env bytes cnt
              (off + 20 + metaLen + dataLen) (u + 1)
              (if 0 < (embOf (if 0 < metaLen then
                  match unpackM (sub bytes (off + 20) metaLen) with
                  | some v => v
                  | none => .mapV []
                else .mapV [])).length ∧ d = 0 then
                (embOf (if 0 < metaLen then
                  match unpackM (sub bytes (off + 20) metaLen) with
                  | some v => v
                  | none => .mapV []
                else .mapV [])).length
              else d)
            omega

/-- C4 amended: parsing is a pure function of the file bytes and the
id-source state, and whenever a parse synthesizes no chunk id (its final
id-source counter equals the initial one, i.e. every chunk carried a truthy
metadata id), the resulting `AifBinFile` is independent of the id-source
state: byte-identical input always reparses to the identical file.  The
synthesized-id fallback draws from the global `crypto.randomUUID()` stream,
so only files with id-less chunks parse differently across runs. -/
theorem parse_deterministic_given_ids (env : JsEnv) (path bytes : List Nat)
    (n : Nat) (f : AifBinFile)
    (h : parseAifBinFile env path bytes n = .ok (f, n)) :
    ∀ m, parseAifBinFile env path bytes m = .ok (f, m) := by
  intro m
  rw [parseAifBinFile] at h ⊢
  by_cases hsize : bytes.length < 64
  · rw [if_pos hsize] at h; cases h
  · rw [if_neg hsize] at h ⊢
    by_cases hmagic : sub bytes 0 8 ≠ MAGIC
    · rw [if_pos hmagic] at h; cases h
    · rw [if_neg hmagic] at h ⊢
      cases h1 : readLE bytes 8 4 with
      | none => simp only [h1] at h; cases h
      | some version =>
        cases h2 : readLE bytes 16 8 with
        | none => simp only [h1, h2] at h; cases h
        | some metadataOffset =>
          cases h3 : readLE bytes 24 8 with
          | none => simp only [h1, h2, h3] at h; cases h
          | some originalRawOffset =>
            cases h4 : readLE bytes 32 8 with
            | none => simp only [h1, h2, h3, h4] at h; cases h
            | some contentChunksOffset =>
              cases h5 : readLE bytes 40 8 with
              | none => simp only [h1, h2, h3, h4, h5] at h; cases h
              | some versionsOffset =>
                cases h6 : readLE bytes 48 8 with
                | none => simp only [h1, h2, h3, h4, h5, h6] at h; cases h
                | some footerOffset =>
                  cases h7 : readLE bytes 56 8 with
                  | none => simp only [h1, h2, h3, h4, h5, h6, h7] at h; cases h
                  | some totalSize =>
                    simp only [h1, h2, h3, h4, h5, h6, h7] at h ⊢
                    by_cases habs : metadataOffset ≠ ABSENT
                    · rw [if_pos habs] at h ⊢
                      cases hml : readLE bytes metadataOffset 8 with
                      | none => simp only [hml] at h; cases h
                      | some metaLen =>
                        simp only [hml] at h ⊢
                        by_cases hcabs : contentChunksOffset ≠ ABSENT
                        · rw [if_pos hcabs] at h ⊢
                          cases hcc : readLE bytes contentChunksOffset 4 with
                          | none => simp only [hcc] at h; cases h
                          | some chunkCount =>
                            simp only [hcc] at h ⊢
                            have hfst := congrArg (fun t =>
                              match t with
                              | Except.ok p => some p.1
                              | Except.error _ => none) h
                            have hsnd := congrArg (fun t =>
                              match t with
                              | Except.ok p => some p.2
                              | Except.error _ => none) h
                            simp only [Option.some.injEq] at hfst hsnd
                            have hidle : (parseChunks env bytes chunkCount
                                (contentChunksOffset + 4) n 0).idSrc = n := hsnd
                            rw [parseChunks_counter_indep env bytes chunkCount
                              (contentChunksOffset + 4) n 0 hidle m]
                            rw [← hfst]
                        · rw [if_neg hcabs] at h ⊢
                          simp only at h ⊢
                          have hfst := congrArg (fun t =>
                            match t with
                            | Except.ok p => some p.1
                            | Except.error _ => none) h
                          simp only [Option.some.injEq] at hfst
                          rw [← hfst]
                    · rw [if_neg habs] at h ⊢
                      simp only at h ⊢
                      by_cases hcabs : contentChunksOffset ≠ ABSENT
                      · rw [if_pos hcabs] at h ⊢
                        cases hcc : readLE bytes contentChunksOffset 4 with
                        | none => simp only [hcc] at h; cases h
                        | some chunkCount =>
                          simp only [hcc] at h ⊢
                          have hfst := congrArg (fun t =>
                            match t with
                            | Except.ok p => some p.1
                            | Except.error _ => none) h
                          have hsnd := congrArg (fun t =>
                            match t with
                            | Except.ok p => some p.2
                            | Except.error _ => none) h
                          simp only [Option.some.injEq] at hfst hsnd
                          have hidle : (parseChunks env bytes chunkCount
                              (contentChunksOffset + 4) n 0).idSrc = n := hsnd
                          rw [parseChunks_counter_indep env bytes chunkCount
                            (contentChunksOffset + 4) n 0 hidle m]
                          rw [← hfst]
                      · rw [if_neg hcabs] at h ⊢
                        simp only at h ⊢
                        have hfst := congrArg (fun t =>
                          match t with
                          | Except.ok p => some p.1
                          | Except.error _ => none) h
                        simp only [Option.some.injEq] at hfst
                        rw [← hfst]

/-- Concrete environment for the parser instances: identity JSON
canonicalization and a constant date function. -/
def wEnv : JsEnv := ⟨fun b => b, fun _ => 0⟩

/-- Concrete 103-byte AIF-BIN file: header with only the content-chunks
section present (at offset 64), one TEXT chunk with body "hi" whose
metadata is the MessagePack map with embedding [1] and no id. -/
def wFileNoId : List Nat :=
  MAGIC ++ [2, 0, 0, 0] ++ [0, 0, 0, 0]
  ++ [255, 255, 255, 255, 255, 255, 255, 255]
  ++ [255, 255, 255, 255, 255, 255, 255, 255]
  ++ [64, 0, 0, 0, 0, 0, 0, 0]
  ++ [255, 255, 255, 255, 255, 255, 255, 255]
  ++ [255, 255, 255, 255, 255, 255, 255, 255]
  ++ [103, 0, 0, 0, 0, 0, 0, 0]
  ++ [1, 0, 0, 0]
  ++ [1, 0, 0, 0]
  ++ [2, 0, 0, 0, 0, 0, 0, 0]
  ++ [13, 0, 0, 0, 0, 0, 0, 0]
  ++ [0x81, 0xa9, 101, 109, 98, 101, 100, 100, 105, 110, 103, 0x91, 0x01]
  ++ [104, 105]

/-- Concrete 108-byte AIF-BIN file like `wFileNoId` but whose chunk
metadata also carries the id "x". -/
def wFileWithId : List Nat :=
  MAGIC ++ [2, 0, 0, 0] ++ [0, 0, 0, 0]
  ++ [255, 255, 255, 255, 255, 255, 255, 255]
  ++ [255, 255, 255, 255, 255, 255, 255, 255]
  ++ [64, 0, 0, 0, 0, 0, 0, 0]
  ++ [255, 255, 255, 255, 255, 255, 255, 255]
  ++ [255, 255, 255, 255, 255, 255, 255, 255]
  ++ [108, 0, 0, 0, 0, 0, 0, 0]
  ++ [1, 0, 0, 0]
  ++ [1, 0, 0, 0]
  ++ [2, 0, 0, 0, 0, 0, 0, 0]
  ++ [18, 0, 0, 0, 0, 0, 0, 0]
  ++ [0x82, 0xa2, 105, 100, 0xa1, 120,
      0xa9, 101, 109, 98, 101, 100, 100, 105, 110, 103, 0x91, 0x01]
  ++ [104, 105]

/-- Chunk ids of a parse result, for stating concrete inequalities. -/
def parsedIds (r : Except ParseErr (AifBinFile × Nat)) : List (List Nat) :=
  match r with
  | .ok p => p.1.chunks.map (fun c => c.id)
  | .error _ => []

/-- File obtained by parsing `wFileWithId` from id-source state 0. -/
def wParsedWithId : AifBinFile :=
  match parseAifBinFile wEnv [97] wFileWithId 0 with
  | .ok p => p.1
  | .error _ => default

/-- Witness for the amended C4: the file whose chunk carries an id parses
identically from a different id-source state. -/
theorem parse_deterministic_given_ids_witness :
    parseAifBinFile wEnv [97] wFileWithId 5 = .ok (wParsedWithId, 5) :=
  parse_deterministic_given_ids wEnv [97] wFileWithId 0 wParsedWithId rfl 5

/-- Counterexample to C4 as stated: two runs of `parseAifBinFile` over
byte-identical contents both succeed yet produce different `ParsedFile`
values — the chunk without a metadata id receives a different synthesized
id on each run, because the fallback draws from the global random UUID
stream rather than a caller-provided source. -/
theorem parse_not_deterministic_counterexample :
    (parseAifBinFile wEnv [97] wFileNoId 0).isOk = true
    ∧ (parseAifBinFile wEnv [97] wFileNoId 1).isOk = true
    ∧ parseAifBinFile wEnv [97] wFileNoId 0 ≠ parseAifBinFile wEnv [97] wFileNoId 1 := by
  refine ⟨by decide, by decide, ?_⟩
  intro h
  have h2 := congrArg parsedIds h
  have h0 : parsedIds (parseAifBinFile wEnv [97] wFileNoId 0) = [[117, 0]] := by decide
  have h1 : parsedIds (parseAifBinFile wEnv [97] wFileNoId 1) = [[117, 1]] := by decide
  rw [h0, h1] at h2
  exact absurd h2 (by decide)

/-- Whether the transactional batch run succeeds depends only on the id and
collection id of each row (and the ids and collections already in the
store) — the embeddings are never examined. -/
theorem insertChunksSeq_isOk_keys :
    ∀ (batch batch2 : List MemoryChunk) (s s2 : Store),
      batch.map (fun c => (c.id, c.collectionId))
        = batch2.map (fun c => (c.id, c.collectionId)) →
      s.chunks.map (fun r => r.id) = s2.chunks.map (fun r => r.id) →
      s.collections = s2.collections →
      (EngramDB.insertChunksSeq s batch).isOk
        = (EngramDB.insertChunksSeq s2 batch2).isOk := by
  intro batch
  induction batch with
  | nil =>
    intro batch2 s s2 hkeys _ _
    cases batch2 with
    | nil => rfl
    | cons c2 cs2 => cases hkeys
  | cons c cs ih =>
    intro batch2 s s2 hkeys hids hcols
    cases batch2 with
    | nil => cases hkeys
    | cons c2 cs2 =>
      simp only [List.map_cons, List.cons.injEq, Prod.mk.injEq] at hkeys
      rcases hkeys with ⟨⟨hid, hcid⟩, hrest⟩
      rw [EngramDB.insertChunksSeq, EngramDB.insertChunksSeq,
        EngramDB.insertChunkRow, EngramDB.insertChunkRow]
      have anyProj : ∀ (l : List ChunkRow) (x : List Nat),
          l.any (fun r => r.id == x) = (l.map (fun r => r.id)).any (fun i => i == x) := by
        intro l x
        induction l with
        | nil => rfl
        | cons a as ihl => simp [ihl]
      have hpk : s.chunks.any (fun r => r.id == c.id)
          = s2.chunks.any (fun r => r.id == c2.id) := by
        rw [anyProj, anyProj, hids, hid]
      have hfk : s.collections.any (fun col => col.id == c.collectionId)
          = s2.collections.any (fun col => col.id == c2.collectionId) := by
        rw [hcols, hcid]
      by_cases h1 : s.chunks.any (fun r => r.id == c.id) = true
      · rw [if_pos h1, if_pos (hpk ▸ h1)]
      · rw [if_neg h1, if_neg (fun hh => h1 (hpk ▸ hh))]
        by_cases h2 : (!s.collections.any (fun col => col.id == c.collectionId)) = true
        · rw [if_pos h2, if_pos (by rw [← hfk]; exact h2)]
        · rw [if_neg h2, if_neg (by rw [← hfk]; exact h2)]
          refine ih cs2 _ _ hrest ?_ hcols
          simp [storeRow, hids, hid]

/-- C3 amended: the store applies no embedding validation — whether
`insertChunks` accepts a batch depends only on each row's id and collection
id, never on the embeddings — while every chunk row that `indexFile` adds
has a non-empty embedding, because the indexer filters out chunks with
empty embeddings before inserting. -/
theorem insertChunks_no_embedding_validation (s : Store) :
    (∀ batch batch2 : List MemoryChunk,
      batch.map (fun c => (c.id, c.collectionId))
        = batch2.map (fun c => (c.id, c.collectionId)) →
      (EngramDB.insertChunks s batch).2.isOk
        = (EngramDB.insertChunks s batch2).2.isOk)
    ∧ (∀ (env : JsEnv) (idSrc : Nat) (p bytes cid : List Nat) (s2 : Store) (u cnt : Nat),
        indexFile env s idSrc p bytes cid = (s2, u, Except.ok cnt) →
        ∀ r ∈ s2.chunks, r ∉ s.chunks → r.embedding ≠ []) := by
  constructor
  · intro batch batch2 hkeys
    have := insertChunksSeq_isOk_keys batch batch2 s s hkeys rfl rfl
    rw [EngramDB.insertChunks, EngramDB.insertChunks]
    cases hs1 : EngramDB.insertChunksSeq s batch with
    | ok s3 =>
      cases hs2 : EngramDB.insertChunksSeq s batch2 with
      | ok s4 => rfl
      | error e => rw [hs1, hs2] at this; cases this
    | error e =>
      cases hs2 : EngramDB.insertChunksSeq s batch2 with
      | ok s4 => rw [hs1, hs2] at this; cases this
      | error e2 => rfl
  · intro env idSrc p bytes cid s2 u cnt hrun r hr hnotold
    rw [indexFile] at hrun
    cases hparse : parseAifBinFile env p bytes idSrc with
    | error e =>
      rw [hparse] at hrun
      have := congrArg (fun t => t.2.2) hrun
      simp at this
    | ok fu =>
      obtain ⟨f, u1⟩ := fu
      rw [hparse] at hrun
      simp only at hrun
      by_cases hemp : (f.chunks.filter (fun c => 0 < c.embedding.length)).length = 0
      · rw [if_pos hemp] at hrun
        have hs2 : s = s2 := congrArg (fun t => t.1) hrun
        exact absurd (hs2 ▸ hr) hnotold
      · rw [if_neg hemp] at hrun
        cases hins : EngramDB.insertChunks (EngramDB.deleteChunksBySource s p).1
            (buildRows cid p f.header
              (f.chunks.filter (fun c => 0 < c.embedding.length)) 0 u1).1 with
        | mk sIns insRes =>
          rw [hins] at hrun
          cases insRes with
          | ok uu =>
            cases uu
            simp only at hrun
            have hs2 : sIns = s2 := congrArg (fun t => t.1) hrun
            subst hs2
            rcases insertChunks_pair_ok _ _ _ hins with ⟨hchunks, _, _⟩
            rw [hchunks] at hr
            rcases List.mem_append.mp hr with hold | hnew
            · exact absurd (List.mem_of_mem_filter hold) hnotold
            · rcases List.mem_map.mp hnew with ⟨q, hq, hqe⟩
              rcases buildRows_mem_fields cid p f.header _ 0 u1 q hq
                with ⟨_, _, c, hc, _, hemb⟩
              rcases List.mem_filter.mp hc with ⟨_, hlen⟩
              simp only [decide_eq_true_eq] at hlen
              rw [← hqe]
              show (storeRow q).embedding ≠ []
              rw [storeRow]
              simp only [ne_eq, List.map_eq_nil_iff]
              rw [hemb]
              intro hcon
              rw [hcon] at hlen
              simp at hlen
          | error e =>
            simp only at hrun
            have := congrArg (fun t => t.2.2) hrun
            simp at this

/-- Batch with a zero-length embedding, same keys as `wBatch`. -/
def wBatchZero : List MemoryChunk := [⟨[107], [99], [115], 0, [104], [], .mapV []⟩]

/-- Witness for the amended C3: acceptance of the zero-length-embedding
batch coincides with acceptance of the same-keyed batch with a non-empty
embedding. -/
theorem insertChunks_no_embedding_validation_witness :
    (EngramDB.insertChunks wStore wBatchZero).2.isOk
      = (EngramDB.insertChunks wStore wBatch).2.isOk :=
  (insertChunks_no_embedding_validation wStore).1 wBatchZero wBatch (by decide)

/-- Counterexample to C3 as stated: a chunk with a zero-length embedding is
accepted and changes the store, and two chunks with different embedding
lengths are accepted into the same collection in one batch — no rejection
occurs. -/
theorem insert_zero_length_embedding_accepted :
    (EngramDB.insertChunks wStore wBatchZero).2.isOk = true
    ∧ (EngramDB.insertChunks wStore wBatchZero).1.chunks.length = 1
    ∧ (EngramDB.insertChunks wStore
        [⟨[107], [99], [115], 0, [104], [1], .mapV []⟩,
         ⟨[108], [99], [115], 1, [105], [1, 2], .mapV []⟩]).2.isOk = true :=
  ⟨by decide, by decide, by decide⟩

/-- The TEXT image of a truthy metadata value is a non-empty byte string. -/
theorem sqlTextOf_truthy_ne_nil {v : MsgValue} (h : truthy v = true) :
    sqlTextOf v ≠ [] := by
  cases v with
  | nil => cases h
  | boolV b => simp [sqlTextOf]
  | intV n =>
    rw [sqlTextOf, decimalBytes]
    by_cases hn : n < 0
    · rw [if_pos hn]; simp
    · rw [if_neg hn]; simp
  | floatV q => simp [sqlTextOf]
  | strV s =>
    rw [truthy] at h
    simp only [Bool.not_eq_true', List.isEmpty_eq_false] at h
    exact h
  | binV b => simp [sqlTextOf]
  | arrV vs => simp [sqlTextOf]
  | mapV kvs => simp [sqlTextOf]

/-- Every chunk the parser loop produces carries a non-empty id: a truthy
metadata id maps to a non-empty TEXT image, and the synthesized UUID is
non-empty. -/
theorem parseChunks_ids_nonempty (env : JsEnv) (bytes : List Nat) :
    ∀ (cnt off u d : Nat), ∀ c ∈ (parseChunks env bytes cnt off u d).chunks,
      c.id ≠ [] := by
  intro cnt
  induction cnt with
  | zero => intro off u d c hc; cases hc
  | succ cnt ih =>
    intro off u d c hc
    rw [parseChunks] at hc
    cases h1 : readLE bytes off 4 with
    | none => rw [h1] at hc; cases hc
    | some ty =>
      cases h2 : readLE bytes (off + 4) 8 with
      | none => rw [h1, h2] at hc; cases hc
      | some dataLen =>
        cases h3 : readLE bytes (off + 12) 8 with
        | none => rw [h1, h2, h3] at hc; cases hc
        | some metaLen =>
          rw [h1, h2, h3] at hc
          simp only at hc
          rcases List.mem_cons.mp hc with h | h
          · subst h
            simp only
            cases hmv : (if 0 < metaLen then
                match unpackM (sub bytes (off + 20) metaLen) with
                | some v => v
                | none => .mapV []
              else .mapV []) with
            | mapV kvs =>
              simp only [idBytesOf]
              cases hjs : jsGet kvs idKey with
              | none =>
                show uuidBytes u ≠ []
                simp [uuidBytes]
              | some v =>
                show (match (if truthy v = true then some (sqlTextOf v) else none) with
                    | some s => (s, u)
                    | none => (uuidBytes u, u + 1)).1 ≠ []
                by_cases htr : truthy v = true
                · rw [if_pos htr]
                  show sqlTextOf v ≠ []
                  exact sqlTextOf_truthy_ne_nil htr
                · rw [if_neg htr]
                  show uuidBytes u ≠ []
                  simp [uuidBytes]
            | nil => show uuidBytes u ≠ []; simp [uuidBytes]
            | boolV b => show uuidBytes u ≠ []; simp [uuidBytes]
            | intV n => show uuidBytes u ≠ []; simp [uuidBytes]
            | floatV q => show uuidBytes u ≠ []; simp [uuidBytes]
            | strV s => show uuidBytes u ≠ []; simp [uuidBytes]
            | binV b => show uuidBytes u ≠ []; simp [uuidBytes]
            | arrV vs => show uuidBytes u ≠ []; simp [uuidBytes]
          · exact ih _ _ _ c h

/-- A successful transactional run implies the batch ids are pairwise
distinct and absent from the chunks table it started from. -/
theorem insertChunksSeq_ok_fresh :
    ∀ (batch : List MemoryChunk) (s s2 : Store),
      EngramDB.insertChunksSeq s batch = .ok s2 →
      (batch.map (fun c => c.id)).Nodup
      ∧ ∀ c ∈ batch, ∀ r ∈ s.chunks, r.id ≠ c.id := by
  intro batch
  induction batch with
  | nil => intro s s2 _; exact ⟨List.nodup_nil, fun c hc => by cases hc⟩
  | cons c cs ih =>
    intro s s2 h
    rw [EngramDB.insertChunksSeq] at h
    cases hrow : EngramDB.insertChunkRow s c with
    | error e => rw [hrow] at h; cases h
    | ok s1 =>
      rw [hrow] at h
      rw [EngramDB.insertChunkRow] at hrow
      by_cases hpk : s.chunks.any (fun r => r.id == c.id) = true
      · rw [if_pos hpk] at hrow; cases hrow
      · rw [if_neg hpk] at hrow
        by_cases hfk : (!s.collections.any (fun col => col.id == c.collectionId)) = true
        · rw [if_pos hfk] at hrow; cases hrow
        · rw [if_neg hfk] at hrow
          injection hrow with hrow
          rcases ih s1 s2 h with ⟨hnd, hfresh⟩
          have hfreshS : ∀ q ∈ cs, ∀ r ∈ s.chunks, r.id ≠ q.id := by
            intro q hq r hr
            refine hfresh q hq r ?_
            rw [← hrow]
            exact List.mem_append_left _ hr
          have hcid : c.id ∉ cs.map (fun q => q.id) := by
            intro hmem
            rcases List.mem_map.mp hmem with ⟨q, hq, hqe⟩
            have : storeRow c ∈ s1.chunks := by
              rw [← hrow]
              exact List.mem_append_right _ (List.mem_cons_self _ _)
            have := hfresh q hq (storeRow c) this
            rw [storeRow] at this
            exact this hqe.symm
          refine ⟨List.nodup_cons.mpr ⟨hcid, hnd⟩, ?_⟩
          intro q hq r hr
          rcases List.mem_cons.mp hq with hqc | hqcs
          · subst hqc
            intro hre
            apply hpk
            rw [List.any_eq_true]
            exact ⟨r, hr, by simp [hre]⟩
          · exact hfreshS q hqcs r hr

/-- For every parsed chunk with a non-empty id, `buildRows` materializes a
record with the same id, text and embedding. -/
theorem buildRows_exists_row (cid path : List Nat) (hdr : AifBinHeader) :
    ∀ (cs : List AifBinChunk) (i u : Nat), ∀ c ∈ cs, c.id ≠ [] →
      ∃ q ∈ (buildRows cid path hdr cs i u).1,
        q.id = c.id ∧ q.text = c.text ∧ q.embedding = c.embedding := by
  intro cs
  induction cs with
  | nil => intro i u c hc; cases hc
  | cons a as ih =>
    intro i u c hc hcne
    rw [buildRows]
    rcases List.mem_cons.mp hc with h | h
    · subst h
      have hie : c.id.isEmpty = false := by
        cases hid : c.id with
        | nil => exact absurd hid hcne
        | cons x xs => rfl
      refine ⟨⟨(if c.id.isEmpty then (uuidBytes u, u + 1) else (c.id, u)).1,
        cid, path, i, c.text, c.embedding, augmentMeta c.metadata hdr⟩,
        List.mem_cons_self _ _, ?_, rfl, rfl⟩
      simp [hie]
    · rcases ih (i + 1) (if a.id.isEmpty then (uuidBytes u, u + 1) else (a.id, u)).2 c h hcne
        with ⟨q, hq, hqf⟩
      exact ⟨q, List.mem_cons_of_mem _ hq, hqf⟩

/-- With pairwise-distinct ids, looking a stored batch row up by its id
finds exactly the stored image of the matching record. -/
theorem find_storeRow_unique :
    ∀ (rows : List MemoryChunk), (rows.map (fun c => c.id)).Nodup →
      ∀ q ∈ rows, (rows.map storeRow).find? (fun r => r.id == q.id) = some (storeRow q) := by
  intro rows
  induction rows with
  | nil => intro _ q hq; cases hq
  | cons a as ih =>
    intro hnd q hq
    rcases List.nodup_cons.mp hnd with ⟨hnotin, hnd2⟩
    rcases List.mem_cons.mp hq with h | h
    · subst h
      have hpos : ((storeRow q).id == q.id) = true := by
        rw [storeRow]; simp
      simp only [List.map_cons, List.find?, hpos]
    · have hne : ((storeRow a).id == q.id) = false := by
        rw [storeRow]
        simp only [beq_eq_false_iff_ne, ne_eq]
        intro he
        apply hnotin
        show a.id ∈ List.map (fun c => c.id) as
        rw [he]
        exact List.mem_map_of_mem (fun c => c.id) h
      simp only [List.map_cons, List.find?, hne]
      exact ih hnd2 q h

/-- Lookup in a concatenation skips a prefix on which the predicate fails
everywhere. -/
theorem find_append_right {α : Type} (p : α → Bool) :
    ∀ (l1 l2 : List α), (∀ x ∈ l1, p x = false) →
      (l1 ++ l2).find? p = l2.find? p := by
  intro l1
  induction l1 with
  | nil => intro l2 _; rfl
  | cons a as ih =>
    intro l2 hall
    rw [List.cons_append, List.find?_cons_of_neg _ (by simp [hall a (List.mem_cons_self a as)])]
    exact ih l2 (fun x hx => hall x (List.mem_cons_of_mem a hx))

/-- Mapping a function that fixes every element is the identity. -/
theorem map_fix_id {f : Rat → Rat} :
    ∀ {l : List Rat}, (∀ v ∈ l, f v = v) → l.map f = l := by
  intro l
  induction l with
  | nil => intro _; rfl
  | cons a as ih =>
    intro h
    rw [List.map_cons, h a (List.mem_cons_self a as),
      ih (fun v hv => h v (List.mem_cons_of_mem a hv))]

/-- Every chunk of a successfully parsed file carries a non-empty id: the
parser itself substitutes a fresh UUID when the metadata id is missing. -/
theorem parse_ok_ids (env : JsEnv) (path bytes : List Nat) (n : Nat)
    (f : AifBinFile) (u : Nat)
    (h : parseAifBinFile env path bytes n = .ok (f, u)) :
    ∀ c ∈ f.chunks, c.id ≠ [] := by
  rw [parseAifBinFile] at h
  by_cases hsize : bytes.length < 64
  · rw [if_pos hsize] at h; cases h
  · rw [if_neg hsize] at h
    by_cases hmagic : sub bytes 0 8 ≠ MAGIC
    · rw [if_pos hmagic] at h; cases h
    · rw [if_neg hmagic] at h
      cases h1 : readLE bytes 8 4 with
      | none => simp only [h1] at h; cases h
      | some version =>
        cases h2 : readLE bytes 16 8 with
        | none => simp only [h1, h2] at h; cases h
        | some metadataOffset =>
          cases h3 : readLE bytes 24 8 with
          | none => simp only [h1, h2, h3] at h; cases h
          | some originalRawOffset =>
            cases h4 : readLE bytes 32 8 with
            | none => simp only [h1, h2, h3, h4] at h; cases h
            | some contentChunksOffset =>
              cases h5 : readLE bytes 40 8 with
              | none => simp only [h1, h2, h3, h4, h5] at h; cases h
              | some versionsOffset =>
                cases h6 : readLE bytes 48 8 with
                | none => simp only [h1, h2, h3, h4, h5, h6] at h; cases h
                | some footerOffset =>
                  cases h7 : readLE bytes 56 8 with
                  | none => simp only [h1, h2, h3, h4, h5, h6, h7] at h; cases h
                  | some totalSize =>
                    simp only [h1, h2, h3, h4, h5, h6, h7] at h
                    by_cases habs : metadataOffset ≠ ABSENT
                    · rw [if_pos habs] at h
                      cases hml : readLE bytes metadataOffset 8 with
                      | none => simp only [hml] at h; cases h
                      | some metaLen =>
                        simp only [hml] at h
                        by_cases hcabs : contentChunksOffset ≠ ABSENT
                        · rw [if_pos hcabs] at h
                          cases hcc : readLE bytes contentChunksOffset 4 with
                          | none => simp only [hcc] at h; cases h
                          | some chunkCount =>
                            simp only [hcc] at h
                            have hfst := congrArg (fun t =>
                              match t with
                              | Except.ok p => some p.1
                              | Except.error _ => none) h
                            simp only [Option.some.injEq] at hfst
                            intro c hc
                            rw [← hfst] at hc
                            exact parseChunks_ids_nonempty env bytes chunkCount
                              (contentChunksOffset + 4) n 0 c hc
                        · rw [if_neg hcabs] at h
                          simp only at h
                          have hfst := congrArg (fun t =>
                            match t with
                            | Except.ok p => some p.1
                            | Except.error _ => none) h
                          simp only [Option.some.injEq] at hfst
                          intro c hc
                          rw [← hfst] at hc
                          cases hc
                    · rw [if_neg habs] at h
                      simp only at h
                      by_cases hcabs : contentChunksOffset ≠ ABSENT
                      · rw [if_pos hcabs] at h
                        cases hcc : readLE bytes contentChunksOffset 4 with
                        | none => simp only [hcc] at h; cases h
                        | some chunkCount =>
                          simp only [hcc] at h
                          have hfst := congrArg (fun t =>
                            match t with
                            | Except.ok p => some p.1
                            | Except.error _ => none) h
                          simp only [Option.some.injEq] at hfst
                          intro c hc
                          rw [← hfst] at hc
                          exact parseChunks_ids_nonempty env bytes chunkCount
                            (contentChunksOffset + 4) n 0 c hc
                      · rw [if_neg hcabs] at h
                        simp only at h
                        have hfst := congrArg (fun t =>
                          match t with
                          | Except.ok p => some p.1
                          | Except.error _ => none) h
                        simp only [Option.some.injEq] at hfst
                        intro c hc
                        rw [← hfst] at hc
                        cases hc

/-- C5 amended: parse-then-index preserves every indexed chunk's text and id
exactly, but the embedding only up to 32-bit float rounding: the stored blob
is a `Float32Array`, so reading the chunk back yields the `f32round` image of
each embedding value, which equals the parsed value exactly when every value
is representable in IEEE-754 binary32. -/
theorem indexFile_preserves_chunk_content (env : JsEnv) (s : Store) (idSrc : Nat)
    (path bytes cid : List Nat) (f : AifBinFile) (u : Nat)
    (s2 : Store) (u2 : Nat) (cnt : Nat)
    (hparse : parseAifBinFile env path bytes idSrc = .ok (f, u))
    (hrun : indexFile env s idSrc path bytes cid = (s2, u2, .ok cnt)) :
    ∀ c ∈ f.chunks, c.embedding ≠ [] →
      ∃ r, EngramDB.getChunk s2 c.id = some r
        ∧ (EngramDB.rowToChunk r).text = c.text
        ∧ (EngramDB.rowToChunk r).id = c.id
        ∧ (EngramDB.rowToChunk r).embedding = c.embedding.map f32round
        ∧ ((∀ v ∈ c.embedding, f32round v = v) →
            (EngramDB.rowToChunk r).embedding = c.embedding) := by
  intro c hc hcemb
  have hcw : c ∈ f.chunks.filter (fun q => 0 < q.embedding.length) :=
    List.mem_filter.mpr ⟨hc, by
      simp only [decide_eq_true_eq]
      exact List.length_pos.mpr hcemb⟩
  have hcid : c.id ≠ [] := parse_ok_ids env path bytes idSrc f u hparse c hc
  rw [indexFile] at hrun
  rw [hparse] at hrun
  simp only at hrun
  by_cases hemp : (f.chunks.filter (fun q => 0 < q.embedding.length)).length = 0
  · exfalso
    have := List.length_pos.mpr (List.ne_nil_of_mem hcw)
    omega
  · rw [if_neg hemp] at hrun
    cases hins : EngramDB.insertChunks (EngramDB.deleteChunksBySource s path).1
        (buildRows cid path f.header
          (f.chunks.filter (fun q => 0 < q.embedding.length)) 0 u).1 with
    | mk sIns insRes =>
      rw [hins] at hrun
      cases insRes with
      | error e =>
        simp only at hrun
        have := congrArg (fun t => t.2.2) hrun
        simp at this
      | ok uu =>
        cases uu
        simp only at hrun
        have hs2 : sIns = s2 := congrArg (fun t => t.1) hrun
        subst hs2
        rcases insertChunks_pair_ok _ _ _ hins with ⟨hchunks, _, _⟩
        have hseq : EngramDB.insertChunksSeq (EngramDB.deleteChunksBySource s path).1
            (buildRows cid path f.header
              (f.chunks.filter (fun q => 0 < q.embedding.length)) 0 u).1 = .ok sIns := by
          have h2 := hins
          rw [EngramDB.insertChunks] at h2
          cases hsq : EngramDB.insertChunksSeq (EngramDB.deleteChunksBySource s path).1
              (buildRows cid path f.header
                (f.chunks.filter (fun q => 0 < q.embedding.length)) 0 u).1 with
          | ok s3 =>
            rw [hsq] at h2
            simp only at h2
            have h3 : s3 = sIns := congrArg Prod.fst h2
            rw [h3]
          | error e2 =>
            rw [hsq] at h2
            simp only at h2
            have := congrArg Prod.snd h2
            simp at this
        rcases insertChunksSeq_ok_fresh _ _ _ hseq with ⟨hnd, hfresh⟩
        rcases buildRows_exists_row cid path f.header
            (f.chunks.filter (fun q => 0 < q.embedding.length)) 0 u c hcw hcid
          with ⟨q, hq, hqid, hqtext, hqemb⟩
        have hprefix : ∀ x ∈ (EngramDB.deleteChunksBySource s path).1.chunks,
            (fun r => r.id == c.id) x = false := by
          intro x hx
          simp only [beq_eq_false_iff_ne, ne_eq]
          intro he
          exact hfresh q hq x hx (he.trans hqid.symm)
        have hfind : EngramDB.getChunk sIns c.id = some (storeRow q) := by
          rw [EngramDB.getChunk, hchunks]
          rw [find_append_right _ _ _ hprefix]
          have hu := find_storeRow_unique _ hnd q hq
          rw [hqid] at hu
          exact hu
        refine ⟨storeRow q, hfind, ?_, ?_, ?_, ?_⟩
        · simp only [EngramDB.rowToChunk, storeRow]
          exact hqtext
        · simp only [EngramDB.rowToChunk, storeRow]
          exact hqid
        · simp only [EngramDB.rowToChunk, storeRow]
          rw [hqemb]
        · intro hall
          simp only [EngramDB.rowToChunk, storeRow]
          rw [hqemb]
          exact map_fix_id hall

/-- Concrete 112-byte AIF-BIN file like `wFileWithId` but whose chunk
metadata carries the id "y" and the embedding [16777217], the smallest
positive integer with no exact IEEE-754 binary32 representation (encoded as
a MessagePack uint32). -/
def wFileBigEmb : List Nat :=
  MAGIC ++ [2, 0, 0, 0] ++ [0, 0, 0, 0]
  ++ [255, 255, 255, 255, 255, 255, 255, 255]
  ++ [255, 255, 255, 255, 255, 255, 255, 255]
  ++ [64, 0, 0, 0, 0, 0, 0, 0]
  ++ [255, 255, 255, 255, 255, 255, 255, 255]
  ++ [255, 255, 255, 255, 255, 255, 255, 255]
  ++ [112, 0, 0, 0, 0, 0, 0, 0]
  ++ [1, 0, 0, 0]
  ++ [1, 0, 0, 0]
  ++ [2, 0, 0, 0, 0, 0, 0, 0]
  ++ [22, 0, 0, 0, 0, 0, 0, 0]
  ++ [0x82, 0xa2, 105, 100, 0xa1, 121,
      0xa9, 101, 109, 98, 101, 100, 100, 105, 110, 103,
      0x91, 0xce, 0x01, 0x00, 0x00, 0x01]
  ++ [104, 105]

/-- Counterexample to C5 as stated: the parsed chunk of `wFileBigEmb` has
embedding [16777217], indexing it succeeds, but the chunk read back from
the store has embedding [16777216] — the stored `Float32Array` blob rounds
each value to binary32, so the embedding is not preserved exactly. -/
theorem index_embedding_not_exact_counterexample :
    ((parseAifBinFile wEnv [97] wFileBigEmb 0).toOption.map
        (fun p => p.1.chunks.map (fun c => c.embedding))
      = some [[ratN 16777217]])
    ∧ ((indexFile wEnv wStore 0 [97] wFileBigEmb [99]).2.2.isOk = true)
    ∧ ((EngramDB.getChunk (indexFile wEnv wStore 0 [97] wFileBigEmb [99]).1 [121]).map
        (fun r => (EngramDB.rowToChunk r).embedding)
      = some [ratN 16777216])
    ∧ ([ratN 16777216] : List Rat) ≠ [ratN 16777217] :=
  ⟨by decide, by decide, by decide, by decide⟩

/-- The single chunk parsed from `wFileWithId`. -/
def wChunkParsed : AifBinChunk :=
  match wParsedWithId.chunks with
  | c :: _ => c
  | [] => default

/-- Witness for the amended C5 at a concrete ingestion: the chunk of
`wFileWithId` is read back with its exact text and id, and with the
binary32 image of its embedding, which here is exact. -/
theorem indexFile_preserves_chunk_content_witness :
    ∃ r, EngramDB.getChunk (indexFile wEnv wStore 0 [97] wFileWithId [99]).1
        wChunkParsed.id = some r
      ∧ (EngramDB.rowToChunk r).text = wChunkParsed.text
      ∧ (EngramDB.rowToChunk r).id = wChunkParsed.id
      ∧ (EngramDB.rowToChunk r).embedding = wChunkParsed.embedding.map f32round
      ∧ ((∀ v ∈ wChunkParsed.embedding, f32round v = v) →
          (EngramDB.rowToChunk r).embedding = wChunkParsed.embedding) := by
  have hmem : wChunkParsed ∈ wParsedWithId.chunks := by
    have he : wParsedWithId.chunks = wChunkParsed :: [] := rfl
    rw [he]
    exact List.mem_cons_self _ _
  exact indexFile_preserves_chunk_content wEnv wStore 0 [97] wFileWithId [99]
    wParsedWithId 0
    (indexFile wEnv wStore 0 [97] wFileWithId [99]).1
    (indexFile wEnv wStore 0 [97] wFileWithId [99]).2.1 1
    rfl rfl wChunkParsed hmem (by decide)

/-- Filtering keeps a list on which the predicate holds everywhere. -/
theorem filter_of_all_true {α : Type} (p : α → Bool) :
    ∀ (l : List α), (∀ x ∈ l, p x = true) → l.filter p = l := by
  intro l
  induction l with
  | nil => intro _; rfl
  | cons a as ih =>
    intro h
    rw [List.filter_cons, if_pos (h a (List.mem_cons_self a as))]
    rw [ih (fun x hx => h x (List.mem_cons_of_mem a hx))]

/-- Filtering empties a list on which the predicate fails everywhere. -/
theorem filter_of_all_false {α : Type} (p : α → Bool) :
    ∀ (l : List α), (∀ x ∈ l, p x = false) → l.filter p = [] := by
  intro l
  induction l with
  | nil => intro _; rfl
  | cons a as ih =>
    intro h
    rw [List.filter_cons, if_neg (by simp [h a (List.mem_cons_self a as)])]
    exact ih (fun x hx => h x (List.mem_cons_of_mem a hx))

/-- When every chunk already carries an id, `buildRows` draws nothing and
returns the id-source counter unchanged. -/
theorem buildRows_counter_fixed (cid path : List Nat) (hdr : AifBinHeader) :
    ∀ (cs : List AifBinChunk) (i u : Nat), (∀ c ∈ cs, c.id ≠ []) →
      (buildRows cid path hdr cs i u).2 = u := by
  intro cs
  induction cs with
  | nil => intro i u _; rfl
  | cons c cs ih =>
    intro i u h
    rw [buildRows]
    have hie : c.id.isEmpty = false := by
      cases hid : c.id with
      | nil => exact absurd hid (h c (List.mem_cons_self c cs))
      | cons x xs => rfl
    simp only [hie]
    exact ih (i + 1) u (fun q hq => h q (List.mem_cons_of_mem c hq))

/-- Two stores with equal tables are equal. -/
theorem store_ext (a b : Store) (h1 : a.collections = b.collections)
    (h2 : a.chunks = b.chunks) (h3 : a.fts = b.fts) : a = b := by
  cases a; cases b
  cases h1; cases h2; cases h3
  rfl

/-- C2 amended: re-ingestion is idempotent replace-by-source whenever the
parse synthesizes no chunk ids (every chunk carries a metadata id, so the
parse returns its id-source counter unchanged — without this the chunk ids
drawn from the random-UUID stream differ between runs) and the store's
keyword index rows mirror its chunk rows (as every store reachable through
the model's operations does): a second `indexFile` run returns the identical
store, counter and count, and after a completed re-ingestion the rows stored
under the file's path are exactly the freshly built batch — no previously
ingested row for that `source_file` survives as such.  The skip path (no
chunk with a non-empty embedding) deletes nothing, which is why the
replacement conjunct is conditional on a positive insert count. -/
theorem indexFile_idempotent_by_source (env : JsEnv) (s : Store) (idSrc : Nat)
    (path bytes cid : List Nat) (f : AifBinFile)
    (hwf : s.fts = s.chunks.map (fun r => (r.id, r.text)))
    (hparse : parseAifBinFile env path bytes idSrc = .ok (f, idSrc))
    (s1 : Store) (u1 cnt : Nat)
    (hrun1 : indexFile env s idSrc path bytes cid = (s1, u1, .ok cnt)) :
    indexFile env s1 u1 path bytes cid = (s1, u1, .ok cnt)
    ∧ (0 < cnt →
        s1.chunks.filter (fun r => r.sourceFile == path)
          = (buildRows cid path f.header
              (f.chunks.filter (fun c => 0 < c.embedding.length)) 0 idSrc).1.map storeRow) := by
  have hids : ∀ c ∈ f.chunks.filter (fun c => 0 < c.embedding.length), c.id ≠ [] :=
    fun c hc => parse_ok_ids env path bytes idSrc f idSrc hparse c (List.mem_filter.mp hc).1
  rw [indexFile] at hrun1
  rw [hparse] at hrun1
  simp only at hrun1
  by_cases hemp : (f.chunks.filter (fun q => 0 < q.embedding.length)).length = 0
  · rw [if_pos hemp] at hrun1
    have hs1 : s = s1 := congrArg (fun t => t.1) hrun1
    have hu1 : idSrc = u1 := congrArg (fun t => t.2.1) hrun1
    have hcnt : (0 : Nat) = cnt := by
      have h := congrArg (fun t => t.2.2) hrun1
      simp only [Except.ok.injEq] at h
      exact h
    subst hs1; subst hu1; subst hcnt
    refine ⟨?_, ?_⟩
    · rw [indexFile, hparse]
      simp only
      rw [if_pos hemp]
    · intro h
      exact absurd h (by decide)
  · rw [if_neg hemp] at hrun1
    cases hins : EngramDB.insertChunks (EngramDB.deleteChunksBySource s path).1
        (buildRows cid path f.header
          (f.chunks.filter (fun q => 0 < q.embedding.length)) 0 idSrc).1 with
    | mk sIns insRes =>
      rw [hins] at hrun1
      cases insRes with
      | error e =>
        simp only at hrun1
        have := congrArg (fun t => t.2.2) hrun1
        simp at this
      | ok uu =>
        cases uu
        simp only at hrun1
        have hs1 : sIns = s1 := congrArg (fun t => t.1) hrun1
        have hu1 : (buildRows cid path f.header
            (f.chunks.filter (fun q => 0 < q.embedding.length)) 0 idSrc).2 = u1 :=
          congrArg (fun t => t.2.1) hrun1
        have hcnt : (buildRows cid path f.header
            (f.chunks.filter (fun q => 0 < q.embedding.length)) 0 idSrc).1.length = cnt := by
          have h := congrArg (fun t => t.2.2) hrun1
          simp only [Except.ok.injEq] at h
          exact h
        subst hs1; subst hu1; subst hcnt
        have hfix : (buildRows cid path f.header
            (f.chunks.filter (fun q => 0 < q.embedding.length)) 0 idSrc).2 = idSrc :=
          buildRows_counter_fixed cid path f.header _ 0 idSrc hids
        have hseq : EngramDB.insertChunksSeq (EngramDB.deleteChunksBySource s path).1
            (buildRows cid path f.header
              (f.chunks.filter (fun q => 0 < q.embedding.length)) 0 idSrc).1 = .ok sIns := by
          have h2 := hins
          rw [EngramDB.insertChunks] at h2
          cases hsq : EngramDB.insertChunksSeq (EngramDB.deleteChunksBySource s path).1
              (buildRows cid path f.header
                (f.chunks.filter (fun q => 0 < q.embedding.length)) 0 idSrc).1 with
          | ok s3 =>
            rw [hsq] at h2
            simp only at h2
            have h3 : s3 = sIns := congrArg Prod.fst h2
            rw [h3]
          | error e2 =>
            rw [hsq] at h2
            simp only at h2
            have := congrArg Prod.snd h2
            simp at this
        rcases insertChunksSeq_ok_fresh _ _ _ hseq with ⟨hnd, hfresh⟩
        rcases insertChunks_pair_ok _ _ _ hins with ⟨hchunks, hfts, hcolls⟩
        have hrowsrc : ∀ q ∈ (buildRows cid path f.header
            (f.chunks.filter (fun c => 0 < c.embedding.length)) 0 idSrc).1,
            q.sourceFile = path :=
          fun q hq => (buildRows_mem_fields cid path f.header _ 0 idSrc q hq).2.1
        have hsdelc : (EngramDB.deleteChunksBySource s path).1.chunks
            = s.chunks.filter (fun r => !(r.sourceFile == path)) := rfl
        have hsdelf : (EngramDB.deleteChunksBySource s path).1.fts
            = s.fts.filter (fun e => !((s.chunks.filter
                (fun r => r.sourceFile == path)).any (fun r => r.id == e.1))) := rfl
        have hmapTrue : ((buildRows cid path f.header
              (f.chunks.filter (fun c => 0 < c.embedding.length)) 0 idSrc).1.map
                storeRow).filter (fun r => r.sourceFile == path)
            = (buildRows cid path f.header
                (f.chunks.filter (fun c => 0 < c.embedding.length)) 0 idSrc).1.map storeRow :=
          filter_of_all_true _ _ (fun x hx => by
            rcases List.mem_map.mp hx with ⟨q, hq, hqe⟩
            rw [← hqe]
            simp [storeRow, hrowsrc q hq])
        have hmapFalse : ((buildRows cid path f.header
              (f.chunks.filter (fun c => 0 < c.embedding.length)) 0 idSrc).1.map
                storeRow).filter (fun r => !(r.sourceFile == path)) = [] :=
          filter_of_all_false _ _ (fun x hx => by
            rcases List.mem_map.mp hx with ⟨q, hq, hqe⟩
            rw [← hqe]
            simp [storeRow, hrowsrc q hq])
        have hkeepTrue : (s.chunks.filter (fun r => !(r.sourceFile == path))).filter
              (fun r => !(r.sourceFile == path))
            = s.chunks.filter (fun r => !(r.sourceFile == path)) :=
          filter_of_all_true _ _ (fun r hr => (List.mem_filter.mp hr).2)
        have hkeepFalse : (s.chunks.filter (fun r => !(r.sourceFile == path))).filter
              (fun r => r.sourceFile == path) = [] :=
          filter_of_all_false _ _ (fun r hr => by
            have h2 := (List.mem_filter.mp hr).2
            simp only [Bool.not_eq_true'] at h2
            exact h2)
        have hdel2chunks : sIns.chunks.filter (fun r => !(r.sourceFile == path))
            = (EngramDB.deleteChunksBySource s path).1.chunks := by
          rw [hchunks, List.filter_append]
          rw [hsdelc, hkeepTrue, hmapFalse, List.append_nil]
        have hremoved2 : sIns.chunks.filter (fun r => r.sourceFile == path)
            = (buildRows cid path f.header
                (f.chunks.filter (fun c => 0 < c.embedding.length)) 0 idSrc).1.map storeRow := by
          rw [hchunks, List.filter_append]
          rw [hsdelc, hkeepFalse, hmapTrue, List.nil_append]
        have hfts2 : sIns.fts.filter (fun e => !((sIns.chunks.filter
              (fun r => r.sourceFile == path)).any (fun r => r.id == e.1)))
            = (EngramDB.deleteChunksBySource s path).1.fts := by
          have hnewFalse : ((buildRows cid path f.header
                (f.chunks.filter (fun c => 0 < c.embedding.length)) 0 idSrc).1.map
                  (fun c => (c.id, c.text))).filter (fun e => !(((buildRows cid path f.header
                (f.chunks.filter (fun c => 0 < c.embedding.length)) 0 idSrc).1.map
                  storeRow).any (fun r => r.id == e.1))) = [] :=
            filter_of_all_false _ _ (fun e he => by
              rcases List.mem_map.mp he with ⟨q, hq, hqe⟩
              have hany : (((buildRows cid path f.header
                  (f.chunks.filter (fun c => 0 < c.embedding.length)) 0 idSrc).1.map
                    storeRow).any (fun r => r.id == e.1)) = true := by
                refine List.any_eq_true.mpr ⟨storeRow q, List.mem_map_of_mem storeRow hq, ?_⟩
                rw [← hqe]
                simp [storeRow]
              rw [hany]
              rfl)
          rw [hremoved2, hfts, List.filter_append]
          rw [hnewFalse, List.append_nil]
          rw [hsdelf]
          refine filter_of_all_true _ _ (fun e he => ?_)
          rcases List.mem_filter.mp he with ⟨hef, hecond⟩
          rw [hwf] at hef
          rcases List.mem_map.mp hef with ⟨r, hr, hre⟩
          have hrnp : r.sourceFile ≠ path := by
            intro hrp
            have : ((s.chunks.filter (fun x => x.sourceFile == path)).any
                (fun x => x.id == e.1)) = true := by
              refine List.any_eq_true.mpr ⟨r, List.mem_filter.mpr ⟨hr, by simp [hrp]⟩, ?_⟩
              rw [← hre]
              simp
            rw [this] at hecond
            cases hecond
          have hrdel : r ∈ (EngramDB.deleteChunksBySource s path).1.chunks := by
            rw [hsdelc]
            exact List.mem_filter.mpr ⟨hr, by simp [hrnp]⟩
          simp only [Bool.not_eq_true']
          refine (Bool.not_eq_true _).mp (fun hany => ?_)
          rcases List.any_eq_true.mp hany with ⟨x, hx, hxid⟩
          rcases List.mem_map.mp hx with ⟨q, hq, hqe⟩
          have hxq : x.id = q.id := by rw [← hqe]; rfl
          have heid : e.1 = r.id := by rw [← hre]
          rw [hxq, heid] at hxid
          simp only [beq_iff_eq] at hxid
          exact hfresh q hq r hrdel hxid.symm
        have hdel2 : (EngramDB.deleteChunksBySource sIns path).1
            = (EngramDB.deleteChunksBySource s path).1 := by
          refine store_ext _ _ ?_ ?_ ?_
          · show sIns.collections = (EngramDB.deleteChunksBySource s path).1.collections
            exact hcolls
          · exact hdel2chunks
          · exact hfts2
        have hic : EngramDB.insertChunks (EngramDB.deleteChunksBySource s path).1
            (buildRows cid path f.header
              (f.chunks.filter (fun q => 0 < q.embedding.length)) 0 idSrc).1
            = (sIns, .ok ()) := by
          rw [EngramDB.insertChunks, hseq]
        refine ⟨?_, fun _ => hremoved2⟩
        rw [hfix]
        rw [indexFile, hparse]
        simp only
        rw [if_neg hemp]
        rw [hdel2, hic]
        simp only
        rw [hfix]

/-- Witness for the amended C2: re-ingesting `wFileWithId` (whose chunk
carries a metadata id) reproduces the identical store, counter and count,
and the rows stored under the path are exactly the built batch. -/
theorem indexFile_idempotent_by_source_witness :
    indexFile wEnv (indexFile wEnv wStore 0 [97] wFileWithId [99]).1
        (indexFile wEnv wStore 0 [97] wFileWithId [99]).2.1 [97] wFileWithId [99]
      = ((indexFile wEnv wStore 0 [97] wFileWithId [99]).1,
         (indexFile wEnv wStore 0 [97] wFileWithId [99]).2.1, .ok 1)
    ∧ (0 < 1 →
        (indexFile wEnv wStore 0 [97] wFileWithId [99]).1.chunks.filter
            (fun r => r.sourceFile == [97])
          = (buildRows [99] [97] wParsedWithId.header
              (wParsedWithId.chunks.filter (fun c => 0 < c.embedding.length)) 0 0).1.map
                storeRow) :=
  indexFile_idempotent_by_source wEnv wStore 0 [97] wFileWithId [99] wParsedWithId rfl rfl
    (indexFile wEnv wStore 0 [97] wFileWithId [99]).1
    (indexFile wEnv wStore 0 [97] wFileWithId [99]).2.1 1 rfl

/-- Counterexample to C2 as stated: both ingestions of `wFileNoId` (whose
chunk has no metadata id) complete, yet the second run leaves a store
different from the first — the sole chunk is stored under id [117, 0] after
one run and under id [117, 1] after two, because each run draws a fresh
UUID for the id-less chunk. -/
theorem index_not_idempotent_counterexample :
    ((indexFile wEnv wStore 0 [97] wFileNoId [99]).2.2.isOk = true)
    ∧ ((indexFile wEnv (indexFile wEnv wStore 0 [97] wFileNoId [99]).1
          (indexFile wEnv wStore 0 [97] wFileNoId [99]).2.1 [97] wFileNoId [99]).2.2.isOk
        = true)
    ∧ ((indexFile wEnv wStore 0 [97] wFileNoId [99]).1.chunks.map (fun r => r.id)
        = [[117, 0]])
    ∧ ((indexFile wEnv (indexFile wEnv wStore 0 [97] wFileNoId [99]).1
          (indexFile wEnv wStore 0 [97] wFileNoId [99]).2.1 [97] wFileNoId [99]).1.chunks.map
            (fun r => r.id)
        = [[117, 1]])
    ∧ ([[117, 1]] : List (List Nat)) ≠ [[117, 0]] :=
  ⟨by decide, by decide, by decide, by decide, by decide⟩
